import Mathlib

/-!
# Verification of `sudoku.py`

A shallow embedding of the 9×9 Sudoku engine in `src/sudoku.py`, together
with theorems settling the specification claims about it.

Conventions of the embedding:
* A Python `list[list[int]]` board is a `List (List Int)`; the empty cell
  sentinel is `-1`, as in the source.
* In-place mutation is modelled by explicit state passing: a Python
  function that mutates its board argument becomes a Lean function that
  also returns the final state of that board.
* The two recursive search procedures (`solve_sudoku` and
  `_count_solutions_helper`) recurse on boards with strictly fewer empty
  cells, so they are embedded with an explicit fuel argument; the public
  entry points supply fuel `count_empty b + 1`, which is shown sufficient
  (`solve_sudoku_fuel_irrelevant`, `count_helper_fuel_irrelevant`).
* Python strings are `List Char`.
-/

set_option maxRecDepth 2048
set_option linter.constructorNameAsVariable false

abbrev Board := List (List Int)

/-- `puzzle[r][c]`. Every access made by the program is in range on a 9×9
board; the out-of-range default `0` is never the empty sentinel. -/
def getCell (b : Board) (r c : Nat) : Int := (b.getD r []).getD c 0

/-- `puzzle[r][c] = v` (in-place update, as a function on board values). -/
def setCell (b : Board) (r c : Nat) (v : Int) : Board :=
  b.set r ((b.getD r []).set c v)

/-- The board really is 9×9 (shape invariant of every board the program
builds). -/
def WfBoard (b : Board) : Prop :=
  b.length = 9 ∧ ∀ row ∈ b, row.length = 9

instance (b : Board) : Decidable (WfBoard b) := by
  unfold WfBoard; infer_instance

/-- `find_next_empty` (src lines 8–23): first cell equal to `-1` in
row-major order, `none` if the board is full. -/
def find_next_empty (puzzle : Board) : Option (Nat × Nat) :=
  (List.range 9).findSome? fun r =>
    (List.range 9).findSome? fun c =>
      if getCell puzzle r c = -1 then some (r, c) else none

/-- `is_valid` (src lines 25–57): `guess` does not occur at any other cell
of the row, the column, or the 3×3 box of `(row, col)`. -/
def is_valid (puzzle : Board) (guess : Int) (row col : Nat) : Bool :=
  ((List.range 9).all fun cIdx =>
    !(getCell puzzle row cIdx == guess && cIdx != col)) &&
  ((List.range 9).all fun rIdx =>
    !(getCell puzzle rIdx col == guess && rIdx != row)) &&
  ((List.range 3).all fun i => (List.range 3).all fun j =>
    !(getCell puzzle (row / 3 * 3 + i) (col / 3 * 3 + j) == guess &&
      !((row / 3 * 3 + i) == row && (col / 3 * 3 + j) == col)))

/-- `count_empty` (src lines 158–160). -/
def count_empty (puzzle : Board) : Nat :=
  (puzzle.map fun row => row.count (-1)).sum

/-- `solve_sudoku` (src lines 59–110) with an explicit fuel argument for
the recursion. Lines 80–93 of the source compute an `is_valid_placement`
flag by a temporary placement, restore the cell, and never read the flag;
that dead code has no observable effect and is omitted. The guess loop
with its early `return True` is the fold: once the flag of the
accumulator is set, remaining guesses pass through. -/
def solve_sudoku_fuel : Nat → Board → Board × Bool
  | 0, puzzle => (puzzle, false)
  | fuel + 1, puzzle =>
    match find_next_empty puzzle with
    | none => (puzzle, true)
    | some (row, col) =>
      (List.range' 1 9).foldl
        (fun st (guess : Nat) =>
          if st.2 then st
          else if is_valid st.1 (guess : Int) row col then
            let res := solve_sudoku_fuel fuel (setCell st.1 row col (guess : Int))
            if res.2 then (res.1, true)
            else (setCell res.1 row col (-1), false)
          else st)
        (puzzle, false)

/-- `solve_sudoku` proper: fuel `count_empty + 1` always suffices, since
each recursive call is made on a board with one more filled cell. -/
def solve_sudoku (puzzle : Board) : Board × Bool :=
  solve_sudoku_fuel (count_empty puzzle + 1) puzzle

/-- The `seen`-set scan at the heart of `is_board_valid`: walk the cells,
fail on a second occurrence of a non-empty value. -/
def scanDups : List Int → List Int → Bool
  | [], _ => true
  | num :: rest, seen =>
    if num != -1 then
      if seen.contains num then false else scanDups rest (num :: seen)
    else scanDups rest seen

/-- The cells of row `r`, in column order. -/
def rowCells (puzzle : Board) (r : Nat) : List Int :=
  (List.range 9).map fun c => getCell puzzle r c

/-- The cells of column `c`, in row order. -/
def colCells (puzzle : Board) (c : Nat) : List Int :=
  (List.range 9).map fun r => getCell puzzle r c

/-- The cells of box `(boxR, boxC)`, in row-major order. -/
def boxCells (puzzle : Board) (boxR boxC : Nat) : List Int :=
  ((List.range 3).map fun i =>
    (List.range 3).map fun j => getCell puzzle (boxR * 3 + i) (boxC * 3 + j)).flatten

/-- `is_board_valid` (src lines 128–156): no duplicate non-empty value in
any row, column or 3×3 box. -/
def is_board_valid (puzzle : Board) : Bool :=
  ((List.range 9).all fun r => scanDups (rowCells puzzle r) []) &&
  ((List.range 9).all fun c => scanDups (colCells puzzle c) []) &&
  ((List.range 3).all fun boxR => (List.range 3).all fun boxC =>
    scanDups (boxCells puzzle boxR boxC) [])

/-- `'1' <= char <= '9'` (src line 171). -/
def isDigitChar (ch : Char) : Bool := '1' ≤ ch && ch ≤ '9'

/-- `int(char)` for a digit character. -/
def digitVal (ch : Char) : Int := (ch.toNat : Int) - ('0'.toNat : Int)

/-- One step of the parsing loop of `read_puzzle_from_string`
(src lines 169–176): place a digit, or clear the `valid_input` flag on a
character that is neither a digit nor the empty marker. -/
def readStep (empty_char : Char) (st : Board × Bool) (ic : Nat × Char) :
    Board × Bool :=
  if isDigitChar ic.2 then
    (setCell st.1 (ic.1 / 9) (ic.1 % 9) (digitVal ic.2), st.2)
  else if ic.2 != empty_char then (st.1, false)
  else st

/-- `read_puzzle_from_string` (src lines 162–182). On an invalid initial
board the source only prints a warning (lines 179–181) and still returns
the board, so that check does not appear in the result. -/
def read_puzzle_from_string (puzzle_string : List Char) (empty_char : Char) :
    Option Board :=
  if puzzle_string.length ≠ 81 then none
  else
    let res := puzzle_string.enum.foldl (readStep empty_char)
      (List.replicate 9 (List.replicate 9 (-1)), true)
    if !res.2 then none
    else some res.1

/-- `copy_board` (src lines 186–196): `copy.deepcopy` produces an equal,
unaliased board; on board values it is the identity. -/
def copy_board (puzzle : Board) : Board := puzzle

/-- `_count_solutions_helper` (src lines 198–228) with explicit fuel, in
state-passing form: returns the final board, the counter, and the
function's boolean result. The `return True` path of the source
(propagated without backtracking, lines 215–218) is kept even though the
helper never actually returns `True`. -/
def _count_solutions_helper : Nat → Board → Nat → Board × Nat × Bool
  | 0, puzzle, cnt => (puzzle, cnt, false)
  | fuel + 1, puzzle, cnt =>
    match find_next_empty puzzle with
    | none => (puzzle, cnt + 1, false)
    | some (row, col) =>
      (List.range' 1 9).foldl
        (fun st (guess : Nat) =>
          if st.2.2 then st
          else if is_valid st.1 (guess : Int) row col then
            let res := _count_solutions_helper fuel
              (setCell st.1 row col (guess : Int)) st.2.1
            if res.2.2 then res
            else (setCell res.1 row col (-1), res.2.1, false)
          else st)
        (puzzle, cnt, false)

/-- `count_solutions` (src lines 230–246): run the helper on a deep copy
of the caller's board, starting the boxed counter at `0`. -/
def count_solutions (puzzle : Board) : Nat :=
  (_count_solutions_helper (count_empty (copy_board puzzle) + 1)
    (copy_board puzzle) 0).2.1

/-- `get_possible_values` (src lines 248–268): the empty set on a filled
cell, otherwise the guesses in 1..9 accepted by `is_valid`. -/
def get_possible_values (puzzle : Board) (row col : Nat) : Finset Int :=
  if getCell puzzle row col ≠ -1 then ∅
  else (Finset.Icc (1 : Int) 9).filter fun guess =>
    is_valid puzzle guess row col = true

/-- `puzzle_to_string` (src lines 270–286): `str(num)` for a filled cell,
the empty marker otherwise, concatenated in row-major order. -/
def puzzle_to_string (puzzle : Board) (empty_char : Char) : List Char :=
  (List.range 9).flatMap fun r =>
    (List.range 9).flatMap fun c =>
      if getCell puzzle r c != -1 then (toString (getCell puzzle r c)).data
      else [empty_char]

/-! ## Basic lemmas on cells and board shape -/

theorem getD_set_self {α : Type} (l : List α) (i : Nat) (v d : α)
    (h : i < l.length) : (l.set i v).getD i d = v := by
  rw [List.getD_eq_getElem?_getD, List.getElem?_set_eq_of_lt _ h, Option.getD_some]

theorem getD_set_ne {α : Type} (l : List α) {i j : Nat} (v d : α)
    (h : i ≠ j) : (l.set i v).getD j d = l.getD j d := by
  rw [List.getD_eq_getElem?_getD, List.getElem?_set_ne h, ← List.getD_eq_getElem?_getD]

theorem set_getD_self {α : Type} (l : List α) (i : Nat) (d : α) (h : i < l.length) :
    l.set i (l.getD i d) = l := by
  apply List.ext_getElem (by simp)
  intro n h1 h2
  rcases eq_or_ne i n with rfl | hne
  · rw [List.getElem_set_self,
      List.getD_eq_getElem?_getD, List.getElem?_eq_getElem h2, Option.getD_some]
  · rw [List.getElem_set_ne hne]

theorem cell_empty_in_range {b : Board} {r c : Nat} (h : getCell b r c = -1) :
    r < b.length ∧ c < (b.getD r []).length := by
  unfold getCell at h
  constructor
  · by_contra hr
    rw [List.getD_eq_default _ _ (Nat.le_of_not_lt hr)] at h
    simp [List.getD] at h
  · by_contra hc
    rw [List.getD_eq_default _ _ (Nat.le_of_not_lt hc)] at h
    exact absurd h (by decide)

theorem getCell_setCell_self {b : Board} {r c : Nat} (v : Int)
    (hr : r < b.length) (hc : c < (b.getD r []).length) :
    getCell (setCell b r c v) r c = v := by
  unfold getCell setCell
  rw [getD_set_self _ _ _ _ hr, getD_set_self _ _ _ _ hc]

theorem getCell_setCell_ne (b : Board) {r c r' c' : Nat} (v : Int)
    (h : ¬(r = r' ∧ c = c')) :
    getCell (setCell b r c v) r' c' = getCell b r' c' := by
  unfold getCell setCell
  rcases eq_or_ne r r' with rfl | hr
  · have hc : c ≠ c' := fun e => h ⟨rfl, e⟩
    rcases Nat.lt_or_ge r b.length with hlt | hge
    · rw [getD_set_self _ _ _ _ hlt, getD_set_ne _ _ _ hc]
    · rw [List.set_eq_of_length_le hge]
  · rw [getD_set_ne _ _ _ hr]

theorem setCell_setCell (b : Board) (r c : Nat) (v w : Int) :
    setCell (setCell b r c v) r c w = setCell b r c w := by
  unfold setCell
  rcases Nat.lt_or_ge r b.length with hlt | hge
  · rw [getD_set_self _ _ _ _ hlt, List.set_set, List.set_set]
  · rw [List.set_eq_of_length_le hge, List.set_eq_of_length_le hge]

theorem setCell_restore {b : Board} {r c : Nat} (h : getCell b r c = -1) (v : Int) :
    setCell (setCell b r c v) r c (-1) = b := by
  obtain ⟨hr, hc⟩ := cell_empty_in_range h
  rw [setCell_setCell]
  unfold getCell at h
  unfold setCell
  rw [← h, set_getD_self _ _ _ hc, set_getD_self _ _ _ hr]

theorem length_setCell (b : Board) (r c : Nat) (v : Int) :
    (setCell b r c v).length = b.length := by
  unfold setCell; rw [List.length_set]

theorem wf_setCell {b : Board} (r c : Nat) (v : Int) (h : WfBoard b) :
    WfBoard (setCell b r c v) := by
  rcases Nat.lt_or_ge r b.length with hlt | hge
  · obtain ⟨h1, h2⟩ := h
    refine ⟨by rw [length_setCell, h1], ?_⟩
    intro row hrow
    unfold setCell at hrow
    rcases List.mem_or_eq_of_mem_set hrow with hmem | heq
    · exact h2 row hmem
    · subst heq
      rw [List.length_set]
      exact h2 _ (by rw [List.getD_eq_getElem?_getD, List.getElem?_eq_getElem hlt,
        Option.getD_some]; exact List.getElem_mem hlt)
  · unfold setCell
    rw [List.set_eq_of_length_le hge]
    exact h

/-! ## Counting empty cells -/

theorem count_empty_nil : count_empty [] = 0 := rfl

theorem count_empty_cons (row : List Int) (rest : Board) :
    count_empty (row :: rest) = row.count (-1) + count_empty rest := by
  unfold count_empty
  rw [List.map_cons, List.sum_cons]

theorem count_row_set {row : List Int} {c : Nat} {v : Int}
    (hc : c < row.length) (hcell : row.getD c 0 = -1) (hv : v ≠ -1) :
    (row.set c v).count (-1) + 1 = row.count (-1) := by
  have hgc : row[c] = -1 := by
    rw [List.getD_eq_getElem?_getD, List.getElem?_eq_getElem hc, Option.getD_some] at hcell
    exact hcell
  have hmem : (-1 : Int) ∈ row := hgc ▸ List.getElem_mem hc
  have hpos : 0 < row.count (-1) := List.count_pos_iff.2 hmem
  rw [List.count_set _ _ _ _ hc, hgc]
  simp [hv]
  omega

theorem count_empty_setCell {b : Board} {r c : Nat} {v : Int}
    (h : getCell b r c = -1) (hv : v ≠ -1) :
    count_empty (setCell b r c v) + 1 = count_empty b := by
  obtain ⟨hr, hc⟩ := cell_empty_in_range h
  unfold getCell at h
  induction b generalizing r with
  | nil => simp at hr
  | cons row rest ih =>
    cases r with
    | zero =>
      unfold setCell
      simp only [List.getD_cons_zero] at h hc ⊢
      rw [List.set_cons_zero, count_empty_cons, count_empty_cons]
      have := count_row_set hc h hv
      omega
    | succ r =>
      simp only [List.getD_cons_succ] at h hc
      have hr' : r < rest.length := by simpa using hr
      unfold setCell
      simp only [List.getD_cons_succ]
      rw [List.set_cons_succ, count_empty_cons, count_empty_cons]
      have := ih h hr' hc
      unfold setCell at this
      omega

/-! ## `find_next_empty`: first empty cell in row-major order -/

theorem findSome?_range'_eq_some {α : Type} (f : Nat → Option α) (s n : Nat) (v : α) :
    (List.range' s n).findSome? f = some v ↔
      ∃ i, s ≤ i ∧ i < s + n ∧ f i = some v ∧ ∀ j, s ≤ j → j < i → f j = none := by
  induction n generalizing s with
  | zero =>
    simp only [List.range'_zero, List.findSome?_nil]
    constructor
    · intro hcontra; exact absurd hcontra (by simp)
    · rintro ⟨i, h1, h2, -, -⟩; omega
  | succ n ih =>
    rw [List.range'_succ, List.findSome?_cons]
    cases hfs : f s with
    | some w =>
      simp only []
      constructor
      · intro hw
        exact ⟨s, le_refl s, by omega, by rw [hfs]; exact hw, fun j h1 h2 => by omega⟩
      · rintro ⟨i, h1, h2, h3, h4⟩
        rcases eq_or_ne i s with rfl | hne
        · rw [hfs] at h3; exact h3
        · have : f s = none := h4 s (le_refl s) (by omega)
          rw [this] at hfs; exact absurd hfs (by simp)
    | none =>
      simp only []
      rw [ih (s + 1)]
      constructor
      · rintro ⟨i, h1, h2, h3, h4⟩
        refine ⟨i, by omega, by omega, h3, fun j hj1 hj2 => ?_⟩
        rcases eq_or_ne j s with rfl | hne
        · exact hfs
        · exact h4 j (by omega) hj2
      · rintro ⟨i, h1, h2, h3, h4⟩
        have hne : i ≠ s := fun e => by rw [e, hfs] at h3; exact absurd h3 (by simp)
        exact ⟨i, by omega, by omega, h3, fun j hj1 hj2 => h4 j (by omega) hj2⟩

theorem findSome?_range'_eq_none {α : Type} (f : Nat → Option α) (s n : Nat) :
    (List.range' s n).findSome? f = none ↔ ∀ i, s ≤ i → i < s + n → f i = none := by
  rw [List.findSome?_eq_none_iff]
  constructor
  · intro h i h1 h2
    exact h i (by rw [List.mem_range']; exact ⟨i - s, by omega⟩)
  · intro h x hx
    rw [List.mem_range'] at hx
    obtain ⟨i, hi, rfl⟩ := hx
    exact h _ (by omega) (by omega)

theorem find_next_empty_eq_none_iff (b : Board) :
    find_next_empty b = none ↔ ∀ r c, r < 9 → c < 9 → getCell b r c ≠ -1 := by
  unfold find_next_empty
  rw [List.range_eq_range', findSome?_range'_eq_none]
  constructor
  · intro h r c hr hc hcell
    have := h r (by omega) (by omega)
    rw [findSome?_range'_eq_none] at this
    have := this c (by omega) (by omega)
    rw [if_pos hcell] at this
    exact absurd this (by simp)
  · intro h r _ hr
    rw [findSome?_range'_eq_none]
    intro c _ hc
    rw [if_neg (h r c (by omega) (by omega))]

theorem find_next_empty_eq_some_iff (b : Board) (r c : Nat) :
    find_next_empty b = some (r, c) ↔
      r < 9 ∧ c < 9 ∧ getCell b r c = -1 ∧
        ∀ r' c', r' < 9 → c' < 9 → (r' < r ∨ (r' = r ∧ c' < c)) →
          getCell b r' c' ≠ -1 := by
  unfold find_next_empty
  rw [List.range_eq_range', findSome?_range'_eq_some]
  constructor
  · rintro ⟨i, -, hi9, hsome, hbefore⟩
    rw [findSome?_range'_eq_some] at hsome
    obtain ⟨j, -, hj9, hcell, hjbefore⟩ := hsome
    have hij : i = r ∧ j = c := by
      by_cases hc : getCell b i j = -1
      · rw [if_pos hc] at hcell
        exact ⟨congrArg Prod.fst (Option.some.inj hcell),
          congrArg Prod.snd (Option.some.inj hcell)⟩
      · rw [if_neg hc] at hcell
        exact absurd hcell (by simp)
    obtain ⟨rfl, rfl⟩ := hij
    have hcell' : getCell b i j = -1 := by
      by_contra hc
      rw [if_neg hc] at hcell
      exact absurd hcell (by simp)
    refine ⟨by omega, by omega, hcell', ?_⟩
    intro r' c' hr' hc' horder hcell''
    rcases horder with hlt | ⟨rfl, hlt⟩
    · have := hbefore r' (by omega) hlt
      rw [findSome?_range'_eq_none] at this
      have := this c' (by omega) (by omega)
      rw [if_pos hcell''] at this
      exact absurd this (by simp)
    · have := hjbefore c' (by omega) hlt
      rw [if_pos hcell''] at this
      exact absurd this (by simp)
  · rintro ⟨hr, hc, hcell, hmin⟩
    refine ⟨r, by omega, by omega, ?_, ?_⟩
    · rw [findSome?_range'_eq_some]
      refine ⟨c, by omega, by omega, by rw [if_pos hcell], ?_⟩
      intro j _ hj
      rw [if_neg (hmin r j hr (by omega) (Or.inr ⟨rfl, hj⟩))]
    · intro j _ hj
      rw [findSome?_range'_eq_none]
      intro c' _ hc'
      rw [if_neg (hmin j c' (by omega) (by omega) (Or.inl hj))]

theorem find_next_empty_some_cell {b : Board} {r c : Nat}
    (h : find_next_empty b = some (r, c)) :
    r < 9 ∧ c < 9 ∧ getCell b r c = -1 := by
  rw [find_next_empty_eq_some_iff] at h
  exact ⟨h.1, h.2.1, h.2.2.1⟩

/-! ## Semantics of `is_valid` -/

theorem is_valid_iff (b : Board) (v : Int) (r c : Nat) :
    is_valid b v r c = true ↔
      (∀ c', c' < 9 → getCell b r c' = v → c' = c) ∧
      (∀ r', r' < 9 → getCell b r' c = v → r' = r) ∧
      (∀ i, i < 3 → ∀ j, j < 3 →
        (getCell b (r / 3 * 3 + i) (c / 3 * 3 + j) = v →
          r / 3 * 3 + i = r ∧ c / 3 * 3 + j = c)) := by
  unfold is_valid
  simp only [Bool.and_eq_true, List.all_eq_true, List.mem_range, Bool.not_eq_true',
    Bool.and_eq_false_iff, beq_eq_false_iff_ne, ne_eq, bne_eq_false_iff_eq,
    Bool.not_eq_false', Bool.and_eq_true, beq_iff_eq, ← imp_iff_not_or, and_assoc]

/-! ## Semantics of `scanDups` and `is_board_valid` -/

theorem scanDups_iff (l : List Int) :
    ∀ seen : List Int, scanDups l seen = true ↔
      ((∀ x : Int, x ≠ -1 → l.count x ≤ 1) ∧
       (∀ x ∈ seen, x ≠ -1 → x ∉ l)) := by
  induction l with
  | nil => intro seen; simp [scanDups]
  | cons num rest ih =>
    intro seen
    by_cases hnum : num = -1
    · subst hnum
      rw [show scanDups (-1 :: rest) seen = scanDups rest seen by simp [scanDups]]
      rw [ih seen]
      constructor
      · rintro ⟨h1, h2⟩
        refine ⟨fun x hx => ?_, fun x hxs hx => ?_⟩
        · rw [List.count_cons]
          have : ((-1 : Int) == x) = false := by simp; omega
          rw [this]
          simpa using h1 x hx
        · rw [List.mem_cons]
          rintro (rfl | hmem)
          · exact hx rfl
          · exact h2 x hxs hx hmem
      · rintro ⟨h1, h2⟩
        refine ⟨fun x hx => ?_, fun x hxs hx hmem => ?_⟩
        · have := h1 x hx
          rw [List.count_cons] at this
          omega
        · exact h2 x hxs hx (List.mem_cons_of_mem _ hmem)
    · rw [show scanDups (num :: rest) seen =
          (if seen.contains num then false else scanDups rest (num :: seen)) by
        simp [scanDups, hnum]]
      by_cases hseen : seen.contains num
      · rw [if_pos hseen]
        constructor
        · intro h; exact absurd h (by simp)
        · rintro ⟨-, h2⟩
          exact absurd (List.mem_cons_self num rest) (h2 num (by simpa using hseen) hnum)
      · rw [if_neg hseen, ih (num :: seen)]
        have hnumseen : num ∉ seen := by simpa using hseen
        constructor
        · rintro ⟨h1, h2⟩
          have hnumrest : num ∉ rest := h2 num (List.mem_cons_self _ _) hnum
          refine ⟨fun x hx => ?_, fun x hxs hx => ?_⟩
          · rw [List.count_cons]
            rcases eq_or_ne num x with rfl | hne
            · have : List.count num rest = 0 := List.count_eq_zero.2 hnumrest
              simp [this]
            · have : (num == x) = false := by simpa using hne
              rw [this]
              simpa using h1 x hx
          · rw [List.mem_cons]
            rintro (rfl | hmem)
            · exact hnumseen hxs
            · exact h2 x (List.mem_cons_of_mem _ hxs) hx hmem
        · rintro ⟨h1, h2⟩
          refine ⟨fun x hx => ?_, fun x hxs hx hmem => ?_⟩
          · have := h1 x hx
            rw [List.count_cons] at this
            omega
          · rcases List.mem_cons.1 hxs with rfl | hxseen
            · have := h1 x hx
              rw [List.count_cons] at this
              simp at this
              have hc := List.count_pos_iff.2 hmem
              omega
            · exact h2 x hxseen hx (List.mem_cons_of_mem _ hmem)

theorem scanDups_nil_iff (l : List Int) :
    scanDups l [] = true ↔ ∀ x : Int, x ≠ -1 → l.count x ≤ 1 := by
  rw [scanDups_iff]
  simp

theorem is_board_valid_iff (b : Board) :
    is_board_valid b = true ↔
      (∀ r, r < 9 → ∀ x : Int, x ≠ -1 → (rowCells b r).count x ≤ 1) ∧
      (∀ c, c < 9 → ∀ x : Int, x ≠ -1 → (colCells b c).count x ≤ 1) ∧
      (∀ br, br < 3 → ∀ bc, bc < 3 → ∀ x : Int, x ≠ -1 →
        (boxCells b br bc).count x ≤ 1) := by
  unfold is_board_valid
  simp only [Bool.and_eq_true, List.all_eq_true, List.mem_range, and_assoc]
  constructor
  · rintro ⟨h1, h2, h3⟩
    exact ⟨fun r hr => (scanDups_nil_iff _).1 (h1 r hr),
      fun c hc => (scanDups_nil_iff _).1 (h2 c hc),
      fun br hbr bc hbc => (scanDups_nil_iff _).1 (h3 br hbr bc hbc)⟩
  · rintro ⟨h1, h2, h3⟩
    exact ⟨fun r hr => (scanDups_nil_iff _).2 (h1 r hr),
      fun c hc => (scanDups_nil_iff _).2 (h2 c hc),
      fun br hbr bc hbc => (scanDups_nil_iff _).2 (h3 br hbr bc hbc)⟩

/-! ## Rows, columns and boxes under a single-cell update -/

theorem map_range'_update {α : Type} (f f' : Nat → α) (v : α) :
    ∀ (n s c : Nat), s ≤ c → c < s + n → f' c = v → (∀ j, j ≠ c → f' j = f j) →
      (List.range' s n).map f' = ((List.range' s n).map f).set (c - s) v := by
  intro n
  induction n with
  | zero => intro s c h1 h2 _ _; omega
  | succ n ih =>
    intro s c h1 h2 hv hagree
    rw [List.range'_succ, List.map_cons, List.map_cons]
    rcases eq_or_ne c s with rfl | hne
    · rw [Nat.sub_self, List.set_cons_zero, hv]
      congr 1
      apply List.map_congr_left
      intro j hj
      rw [List.mem_range'] at hj
      apply hagree
      omega
    · have hcs : c - s = (c - (s + 1)) + 1 := by omega
      rw [hcs, List.set_cons_succ, hagree s (by omega)]
      congr 1
      exact ih (s + 1) c (by omega) (by omega) hv hagree

theorem rowCells_setCell_self {b : Board} {r c : Nat} (v : Int) (hc9 : c < 9)
    (hr : r < b.length) (hcl : c < (b.getD r []).length) :
    rowCells (setCell b r c v) r = (rowCells b r).set c v := by
  unfold rowCells
  rw [List.range_eq_range']
  have := map_range'_update (fun c' => getCell b r c')
    (fun c' => getCell (setCell b r c v) r c') v 9 0 c (by omega) (by omega)
    (getCell_setCell_self v hr hcl)
    (fun j hj => getCell_setCell_ne b v (fun he => hj he.2.symm))
  simpa using this

theorem rowCells_setCell_ne {b : Board} {r c : Nat} (v : Int) {r' : Nat}
    (h : r' ≠ r) : rowCells (setCell b r c v) r' = rowCells b r' := by
  unfold rowCells
  apply List.map_congr_left
  intro c' _
  exact getCell_setCell_ne b v (fun he => h he.1.symm)

theorem colCells_setCell_self {b : Board} {r c : Nat} (v : Int) (hr9 : r < 9)
    (hr : r < b.length) (hcl : c < (b.getD r []).length) :
    colCells (setCell b r c v) c = (colCells b c).set r v := by
  unfold colCells
  rw [List.range_eq_range']
  have := map_range'_update (fun r' => getCell b r' c)
    (fun r' => getCell (setCell b r c v) r' c) v 9 0 r (by omega) (by omega)
    (getCell_setCell_self v hr hcl)
    (fun j hj => getCell_setCell_ne b v (fun he => hj he.1.symm))
  simpa using this

theorem colCells_setCell_ne {b : Board} {r c : Nat} (v : Int) {c' : Nat}
    (h : c' ≠ c) : colCells (setCell b r c v) c' = colCells b c' := by
  unfold colCells
  apply List.map_congr_left
  intro r' _
  exact getCell_setCell_ne b v (fun he => h he.2.symm)

theorem boxCells_eq_map (b : Board) (br bc : Nat) :
    boxCells b br bc =
      (List.range 9).map fun k => getCell b (br * 3 + k / 3) (bc * 3 + k % 3) := rfl

theorem boxCells_setCell_self {b : Board} {r c : Nat} (v : Int)
    (hr9 : r < 9) (hc9 : c < 9)
    (hr : r < b.length) (hcl : c < (b.getD r []).length) :
    boxCells (setCell b r c v) (r / 3) (c / 3) =
      (boxCells b (r / 3) (c / 3)).set (r % 3 * 3 + c % 3) v := by
  rw [boxCells_eq_map, boxCells_eq_map, List.range_eq_range']
  have e1 : r / 3 * 3 + (r % 3 * 3 + c % 3) / 3 = r := by omega
  have e2 : c / 3 * 3 + (r % 3 * 3 + c % 3) % 3 = c := by omega
  have hv' : getCell (setCell b r c v) (r / 3 * 3 + (r % 3 * 3 + c % 3) / 3)
      (c / 3 * 3 + (r % 3 * 3 + c % 3) % 3) = v := by
    rw [e1, e2]
    exact getCell_setCell_self v hr hcl
  have := map_range'_update
    (fun k => getCell b (r / 3 * 3 + k / 3) (c / 3 * 3 + k % 3))
    (fun k => getCell (setCell b r c v) (r / 3 * 3 + k / 3) (c / 3 * 3 + k % 3))
    v 9 0 (r % 3 * 3 + c % 3) (by omega) (by omega) hv'
    (fun j hj => getCell_setCell_ne b v (fun he => hj (by omega)))
  simpa using this

theorem boxCells_setCell_ne {b : Board} {r c : Nat} (v : Int) {br bc : Nat}
    (h : ¬(br = r / 3 ∧ bc = c / 3)) :
    boxCells (setCell b r c v) br bc = boxCells b br bc := by
  rw [boxCells_eq_map, boxCells_eq_map]
  apply List.map_congr_left
  intro k hk
  rw [List.mem_range] at hk
  refine getCell_setCell_ne b v (fun he => h ?_)
  omega

/-! ## A validated placement preserves board validity -/

theorem count_notin_zero {l : List Int} {x : Int} (h : x ∉ l) : l.count x = 0 :=
  List.count_eq_zero.2 h

theorem is_board_valid_setCell {b : Board} {r c : Nat} {v : Int}
    (hr9 : r < 9) (hc9 : c < 9) (hcell : getCell b r c = -1)
    (hvne : v ≠ -1)
    (hvalid : is_valid b v r c = true)
    (hboard : is_board_valid b = true) :
    is_board_valid (setCell b r c v) = true := by
  obtain ⟨hr, hcl⟩ := cell_empty_in_range hcell
  rw [is_board_valid_iff] at hboard ⊢
  obtain ⟨hrow, hcol, hbox⟩ := hboard
  rw [is_valid_iff] at hvalid
  obtain ⟨hv1, hv2, hv3⟩ := hvalid
  refine ⟨?_, ?_, ?_⟩
  · -- rows
    intro r' hr' x hx
    rcases eq_or_ne r' r with rfl | hne
    · rw [rowCells_setCell_self v hc9 hr hcl]
      have hlen : c < (rowCells b r').length := by
        unfold rowCells
        simp only [List.length_map, List.length_range]
        omega
      rw [List.count_set v x _ _ hlen]
      have hne1 : ¬((rowCells b r')[c] == x) = true := by
        unfold rowCells
        simp only [List.getElem_map, List.getElem_range, beq_iff_eq]
        rw [hcell]
        exact fun e => hx e.symm
      rw [if_neg hne1]
      rcases eq_or_ne x v with rfl | hxv
      · have hvz : List.count x (rowCells b r') = 0 := by
          apply count_notin_zero
          intro hmem
          unfold rowCells at hmem
          rw [List.mem_map] at hmem
          obtain ⟨c', hc', he⟩ := hmem
          rw [List.mem_range] at hc'
          have := hv1 c' hc' he
          subst this
          rw [hcell] at he
          exact hx he.symm
        rw [hvz]
        simp
      · have : ¬((v == x) = true) := by
          simp only [beq_iff_eq]
          exact fun e => hxv e.symm
        rw [if_neg this]
        have := hrow r' hr' x hx
        omega
    · rw [rowCells_setCell_ne v hne]
      exact hrow r' hr' x hx
  · -- columns
    intro c' hc' x hx
    rcases eq_or_ne c' c with rfl | hne
    · rw [colCells_setCell_self v hr9 hr hcl]
      have hlen : r < (colCells b c').length := by
        unfold colCells
        simp only [List.length_map, List.length_range]
        omega
      rw [List.count_set v x _ _ hlen]
      have hne1 : ¬((colCells b c')[r] == x) = true := by
        unfold colCells
        simp only [List.getElem_map, List.getElem_range, beq_iff_eq]
        rw [hcell]
        exact fun e => hx e.symm
      rw [if_neg hne1]
      rcases eq_or_ne x v with rfl | hxv
      · have hvz : List.count x (colCells b c') = 0 := by
          apply count_notin_zero
          intro hmem
          unfold colCells at hmem
          rw [List.mem_map] at hmem
          obtain ⟨r', hr', he⟩ := hmem
          rw [List.mem_range] at hr'
          have := hv2 r' hr' he
          subst this
          rw [hcell] at he
          exact hx he.symm
        rw [hvz]
        simp
      · have : ¬((v == x) = true) := by
          simp only [beq_iff_eq]
          exact fun e => hxv e.symm
        rw [if_neg this]
        have := hcol c' hc' x hx
        omega
    · rw [colCells_setCell_ne v hne]
      exact hcol c' hc' x hx
  · -- boxes
    intro br hbr bc hbc x hx
    by_cases hsame : br = r / 3 ∧ bc = c / 3
    · obtain ⟨rfl, rfl⟩ := hsame
      rw [boxCells_setCell_self v hr9 hc9 hr hcl]
      have hlen : r % 3 * 3 + c % 3 < (boxCells b (r / 3) (c / 3)).length := by
        rw [boxCells_eq_map]
        simp only [List.length_map, List.length_range]
        omega
      rw [List.count_set v x _ _ hlen]
      have e1 : r / 3 * 3 + (r % 3 * 3 + c % 3) / 3 = r := by omega
      have e2 : c / 3 * 3 + (r % 3 * 3 + c % 3) % 3 = c := by omega
      have hne1 : ¬((boxCells b (r / 3) (c / 3))[r % 3 * 3 + c % 3] == x) = true := by
        simp only [boxCells_eq_map, List.getElem_map, List.getElem_range, beq_iff_eq]
        rw [e1, e2, hcell]
        exact fun e => hx e.symm
      rw [if_neg hne1]
      rcases eq_or_ne x v with rfl | hxv
      · have hvz : List.count x (boxCells b (r / 3) (c / 3)) = 0 := by
          apply count_notin_zero
          intro hmem
          rw [boxCells_eq_map, List.mem_map] at hmem
          obtain ⟨k, hk, he⟩ := hmem
          rw [List.mem_range] at hk
          have := hv3 (k / 3) (by omega) (k % 3) (by omega) he
          obtain ⟨he1, he2⟩ := this
          have hgx : getCell b r c = x := by
            rw [← he1, ← he2]
            exact he
          rw [hcell] at hgx
          exact hx hgx.symm
        rw [hvz]
        simp
      · have : ¬((v == x) = true) := by
          simp only [beq_iff_eq]
          exact fun e => hxv e.symm
        rw [if_neg this]
        have := hbox (r / 3) hbr (c / 3) hbc x hx
        omega
    · rw [boxCells_setCell_ne v hsame]
      exact hbox br hbr bc hbc x hx

/-! ## The guess loop of `solve_sudoku` -/

/-- The body of the guess loop of `solve_sudoku_fuel`, as a named step
function (identical to the lambda in the definition). -/
def solveStep (fuel row col : Nat) (st : Board × Bool) (guess : Nat) :
    Board × Bool :=
  if st.2 then st
  else if is_valid st.1 (guess : Int) row col then
    let res := solve_sudoku_fuel fuel (setCell st.1 row col (guess : Int))
    if res.2 then (res.1, true)
    else (setCell res.1 row col (-1), false)
  else st

theorem solve_sudoku_fuel_succ_none {b : Board} {fuel : Nat}
    (h : find_next_empty b = none) :
    solve_sudoku_fuel (fuel + 1) b = (b, true) := by
  unfold solve_sudoku_fuel
  rw [h]

theorem solve_sudoku_fuel_succ_some {b : Board} {fuel row col : Nat}
    (h : find_next_empty b = some (row, col)) :
    solve_sudoku_fuel (fuel + 1) b =
      (List.range' 1 9).foldl (solveStep fuel row col) (b, false) := by
  unfold solve_sudoku_fuel
  rw [h]
  rfl

theorem solveStep_inv {fuel row col : Nat} {b : Board} (g : Nat)
    (hcell : getCell b row col = -1)
    (hrec : ∀ b', (solve_sudoku_fuel fuel b').2 = false →
      (solve_sudoku_fuel fuel b').1 = b')
    (st : Board × Bool) (hst : st.2 = true ∨ st = (b, false)) :
    (solveStep fuel row col st g).2 = true ∨
      solveStep fuel row col st g = (b, false) := by
  rcases hst with h2 | heq
  · unfold solveStep
    rw [if_pos h2]
    exact Or.inl h2
  · subst heq
    unfold solveStep
    simp only [show ((b, false) : Board × Bool).2 = false from rfl, Bool.false_eq_true,
      if_false]
    by_cases hv : is_valid b (g : Int) row col = true
    · rw [if_pos hv]
      set res := solve_sudoku_fuel fuel (setCell b row col (g : Int)) with hres
      by_cases h2 : res.2 = true
      · rw [if_pos h2]
        exact Or.inl rfl
      · rw [if_neg h2]
        refine Or.inr ?_
        have hrest : res.1 = setCell b row col (g : Int) :=
          hrec _ (by simpa using h2)
        rw [hrest, setCell_restore hcell]
    · rw [if_neg hv]
      exact Or.inr rfl

theorem solve_loop_inv {fuel row col : Nat} {b : Board}
    (hcell : getCell b row col = -1)
    (hrec : ∀ b', (solve_sudoku_fuel fuel b').2 = false →
      (solve_sudoku_fuel fuel b').1 = b') :
    ∀ (gs : List Nat) (st : Board × Bool), (st.2 = true ∨ st = (b, false)) →
      ((gs.foldl (solveStep fuel row col) st).2 = true ∨
        gs.foldl (solveStep fuel row col) st = (b, false)) := by
  intro gs
  induction gs with
  | nil => intro st hst; exact hst
  | cons g gs ih =>
    intro st hst
    rw [List.foldl_cons]
    exact ih _ (solveStep_inv g hcell hrec st hst)

theorem solve_sudoku_fuel_restore :
    ∀ (fuel : Nat) (b : Board), (solve_sudoku_fuel fuel b).2 = false →
      (solve_sudoku_fuel fuel b).1 = b := by
  intro fuel
  induction fuel with
  | zero => intro b _; rfl
  | succ fuel ih =>
    intro b hfalse
    cases hfe : find_next_empty b with
    | none =>
      rw [solve_sudoku_fuel_succ_none hfe] at hfalse
      exact absurd hfalse (by simp)
    | some rc =>
      obtain ⟨row, col⟩ := rc
      have hcell := (find_next_empty_some_cell hfe).2.2
      rw [solve_sudoku_fuel_succ_some hfe] at hfalse ⊢
      rcases solve_loop_inv hcell ih (List.range' 1 9) (b, false) (Or.inr rfl) with
        h | h
      · rw [hfalse] at h; exact absurd h (by simp)
      · rw [h]

theorem count_empty_pos {b : Board} {r c : Nat} (h : getCell b r c = -1) :
    0 < count_empty b := by
  have := count_empty_setCell h (show (0 : Int) ≠ -1 by decide)
  omega

/-! ## `solve_sudoku` success: the final grid is full and valid -/

theorem solve_loop_sound {fuel row col : Nat} {b : Board}
    (hrow9 : row < 9) (hcol9 : col < 9)
    (hcell : getCell b row col = -1)
    (hb : is_board_valid b = true)
    (hrec : ∀ b', (solve_sudoku_fuel fuel b').2 = false →
      (solve_sudoku_fuel fuel b').1 = b')
    (hsound : ∀ b', is_board_valid b' = true → (solve_sudoku_fuel fuel b').2 = true →
      is_board_valid (solve_sudoku_fuel fuel b').1 = true ∧
      find_next_empty (solve_sudoku_fuel fuel b').1 = none) :
    ∀ (gs : List Nat), (∀ g ∈ gs, 1 ≤ g ∧ g ≤ 9) →
      ∀ (st : Board × Bool),
      ((st.2 = true → (is_board_valid st.1 = true ∧ find_next_empty st.1 = none)) ∧
       (st.2 = false → st = (b, false))) →
      ((st' : Board × Bool) → st' = gs.foldl (solveStep fuel row col) st →
        (st'.2 = true → (is_board_valid st'.1 = true ∧ find_next_empty st'.1 = none)) ∧
        (st'.2 = false → st' = (b, false))) := by
  intro gs
  induction gs with
  | nil =>
    intro _ st hst st' hst'
    rw [List.foldl_nil] at hst'
    rw [hst']
    exact hst
  | cons g gs ih =>
    intro hmem st hst st' hst'
    rw [List.foldl_cons] at hst'
    refine ih (fun x hx => hmem x (List.mem_cons_of_mem _ hx)) _ ?_ st' hst'
    obtain ⟨hg1, hg9⟩ := hmem g (List.mem_cons_self _ _)
    obtain ⟨hQt, hQf⟩ := hst
    by_cases h2 : st.2 = true
    · unfold solveStep
      rw [if_pos h2]
      exact ⟨hQt, hQf⟩
    · have hbf : st = (b, false) := hQf (by simpa using h2)
      subst hbf
      unfold solveStep
      simp only [show ((b, false) : Board × Bool).2 = false from rfl,
        Bool.false_eq_true, if_false]
      by_cases hv : is_valid b (g : Int) row col = true
      · rw [if_pos hv]
        have hvne : (g : Int) ≠ -1 := by omega
        have hb1 : is_board_valid (setCell b row col (g : Int)) = true :=
          is_board_valid_setCell hrow9 hcol9 hcell hvne hv hb
        set res := solve_sudoku_fuel fuel (setCell b row col (g : Int)) with hres
        by_cases hr2 : res.2 = true
        · rw [if_pos hr2]
          constructor
          · intro _
            exact hsound _ hb1 hr2
          · intro hcontra
            exact absurd hcontra (by simp)
        · rw [if_neg hr2]
          constructor
          · intro hcontra
            exact absurd hcontra (by simp)
          · intro _
            have : res.1 = setCell b row col (g : Int) := hrec _ (by simpa using hr2)
            rw [this, setCell_restore hcell]
      · rw [if_neg hv]
        constructor
        · intro hcontra
          exact absurd hcontra (by simp)
        · intro _
          rfl

theorem solve_sudoku_fuel_sound :
    ∀ (fuel : Nat) (b : Board), is_board_valid b = true →
      (solve_sudoku_fuel fuel b).2 = true →
      is_board_valid (solve_sudoku_fuel fuel b).1 = true ∧
      find_next_empty (solve_sudoku_fuel fuel b).1 = none := by
  intro fuel
  induction fuel with
  | zero =>
    intro b _ h
    exact absurd h (by simp [solve_sudoku_fuel])
  | succ fuel ih =>
    intro b hb hdone
    cases hfe : find_next_empty b with
    | none =>
      rw [solve_sudoku_fuel_succ_none hfe]
      exact ⟨hb, hfe⟩
    | some rc =>
      obtain ⟨row, col⟩ := rc
      obtain ⟨hrow9, hcol9, hcell⟩ := find_next_empty_some_cell hfe
      rw [solve_sudoku_fuel_succ_some hfe] at hdone ⊢
      have := solve_loop_sound hrow9 hcol9 hcell hb (solve_sudoku_fuel_restore fuel) ih
        (List.range' 1 9)
        (fun x hx => by rw [List.mem_range'] at hx; omega)
        (b, false)
        ⟨fun hcontra => absurd hcontra (by simp), fun _ => rfl⟩
        _ rfl
      exact this.1 hdone

/-! ## Fuel irrelevance for `solve_sudoku_fuel` -/

theorem solve_loop_cong {f1 f2 row col : Nat} {b : Board}
    (hcell : getCell b row col = -1)
    (Heq : ∀ g : Nat, solve_sudoku_fuel f1 (setCell b row col (g : Int)) =
      solve_sudoku_fuel f2 (setCell b row col (g : Int))) :
    ∀ (gs : List Nat) (st : Board × Bool), (st.2 = true ∨ st = (b, false)) →
      gs.foldl (solveStep f1 row col) st = gs.foldl (solveStep f2 row col) st := by
  intro gs
  induction gs with
  | nil => intro st _; rfl
  | cons g gs ih =>
    intro st hst
    rw [List.foldl_cons, List.foldl_cons]
    have hstep : solveStep f1 row col st g = solveStep f2 row col st g := by
      rcases hst with h2 | heq
      · unfold solveStep
        rw [if_pos h2, if_pos h2]
      · subst heq
        unfold solveStep
        simp only [show ((b, false) : Board × Bool).2 = false from rfl,
          Bool.false_eq_true, if_false]
        rw [Heq g]
    rw [hstep]
    have hinv1 := solveStep_inv g hcell (solve_sudoku_fuel_restore f1) st hst
    rw [hstep] at hinv1
    exact ih _ hinv1

theorem solve_sudoku_fuel_irrelevant :
    ∀ (fuel : Nat) (b : Board), count_empty b < fuel →
      solve_sudoku_fuel fuel b = solve_sudoku_fuel (count_empty b + 1) b := by
  intro fuel
  induction fuel using Nat.strong_induction_on with
  | _ fuel ih =>
    intro b hfuel
    cases fuel with
    | zero => omega
    | succ f =>
      cases hfe : find_next_empty b with
      | none =>
        have h1 : count_empty b + 1 = count_empty b + 1 := rfl
        rw [solve_sudoku_fuel_succ_none hfe]
        rw [show count_empty b + 1 = count_empty b + 1 from rfl,
          solve_sudoku_fuel_succ_none hfe]
      | some rc =>
        obtain ⟨row, col⟩ := rc
        have hcell := (find_next_empty_some_cell hfe).2.2
        have hce : 0 < count_empty b := count_empty_pos hcell
        rw [solve_sudoku_fuel_succ_some hfe,
          show count_empty b + 1 = (count_empty b - 1) + 1 + 1 - 1 + 1 by omega]
        rw [show (count_empty b - 1) + 1 + 1 - 1 + 1 = count_empty b + 1 by omega,
          show count_empty b + 1 = (count_empty b) + 1 from rfl,
          solve_sudoku_fuel_succ_some hfe]
        apply solve_loop_cong hcell ?_ (List.range' 1 9) (b, false) (Or.inr rfl)
        intro g
        have hvne : (g : Int) ≠ -1 := by omega
        have hce1 : count_empty (setCell b row col (g : Int)) + 1 = count_empty b :=
          count_empty_setCell hcell hvne
        have e1 : solve_sudoku_fuel f (setCell b row col (g : Int)) =
            solve_sudoku_fuel (count_empty (setCell b row col (g : Int)) + 1)
              (setCell b row col (g : Int)) :=
          ih f (by omega) _ (by omega)
        have e2 : solve_sudoku_fuel (count_empty b) (setCell b row col (g : Int)) =
            solve_sudoku_fuel (count_empty (setCell b row col (g : Int)) + 1)
              (setCell b row col (g : Int)) :=
          ih (count_empty b) (by omega) _ (by omega)
        rw [e1, ← e2]

/-! ## The guess loop of `_count_solutions_helper` -/

/-- The body of the guess loop of `_count_solutions_helper`, as a named
step function (identical to the lambda in the definition). -/
def countStep (fuel row col : Nat) (st : Board × Nat × Bool) (guess : Nat) :
    Board × Nat × Bool :=
  if st.2.2 then st
  else if is_valid st.1 (guess : Int) row col then
    let res := _count_solutions_helper fuel (setCell st.1 row col (guess : Int)) st.2.1
    if res.2.2 then res
    else (setCell res.1 row col (-1), res.2.1, false)
  else st

theorem count_helper_succ_none {b : Board} {fuel cnt : Nat}
    (h : find_next_empty b = none) :
    _count_solutions_helper (fuel + 1) b cnt = (b, cnt + 1, false) := by
  unfold _count_solutions_helper
  rw [h]

theorem count_helper_succ_some {b : Board} {fuel cnt row col : Nat}
    (h : find_next_empty b = some (row, col)) :
    _count_solutions_helper (fuel + 1) b cnt =
      (List.range' 1 9).foldl (countStep fuel row col) (b, cnt, false) := by
  unfold _count_solutions_helper
  rw [h]
  rfl

theorem countStep_inv {fuel row col : Nat} {b : Board} (g : Nat)
    (hcell : getCell b row col = -1)
    (hrec : ∀ b' cnt, (_count_solutions_helper fuel b' cnt).1 = b' ∧
      (_count_solutions_helper fuel b' cnt).2.2 = false)
    (st : Board × Nat × Bool) (hst : st.1 = b ∧ st.2.2 = false) :
    (countStep fuel row col st g).1 = b ∧
      (countStep fuel row col st g).2.2 = false := by
  obtain ⟨hb, hflag⟩ := hst
  unfold countStep
  rw [if_neg (by rw [hflag]; simp)]
  by_cases hv : is_valid st.1 (g : Int) row col = true
  · rw [if_pos hv]
    have hr1 := (hrec (setCell st.1 row col (g : Int)) st.2.1).1
    have hr2 := (hrec (setCell st.1 row col (g : Int)) st.2.1).2
    rw [if_neg (by rw [hr2]; simp)]
    refine ⟨?_, rfl⟩
    rw [hr1, hb, setCell_restore hcell]
  · rw [if_neg hv]
    exact ⟨hb, hflag⟩

theorem count_loop_inv {fuel row col : Nat} {b : Board}
    (hcell : getCell b row col = -1)
    (hrec : ∀ b' cnt, (_count_solutions_helper fuel b' cnt).1 = b' ∧
      (_count_solutions_helper fuel b' cnt).2.2 = false) :
    ∀ (gs : List Nat) (st : Board × Nat × Bool), (st.1 = b ∧ st.2.2 = false) →
      ((gs.foldl (countStep fuel row col) st).1 = b ∧
        (gs.foldl (countStep fuel row col) st).2.2 = false) := by
  intro gs
  induction gs with
  | nil => intro st hst; exact hst
  | cons g gs ih =>
    intro st hst
    rw [List.foldl_cons]
    exact ih _ (countStep_inv g hcell hrec st hst)

/-- The helper always restores its board and always returns `False`
(the early-stop `return True` path of the source is dead code). -/
theorem count_helper_state :
    ∀ (fuel : Nat) (b : Board) (cnt : Nat),
      (_count_solutions_helper fuel b cnt).1 = b ∧
      (_count_solutions_helper fuel b cnt).2.2 = false := by
  intro fuel
  induction fuel with
  | zero => intro b cnt; exact ⟨rfl, rfl⟩
  | succ fuel ih =>
    intro b cnt
    cases hfe : find_next_empty b with
    | none =>
      rw [count_helper_succ_none hfe]
      exact ⟨rfl, rfl⟩
    | some rc =>
      obtain ⟨row, col⟩ := rc
      have hcell := (find_next_empty_some_cell hfe).2.2
      rw [count_helper_succ_some hfe]
      exact count_loop_inv hcell ih (List.range' 1 9) (b, cnt, false) ⟨rfl, rfl⟩

/-! ## Fuel irrelevance for `_count_solutions_helper` -/

theorem count_loop_cong {f1 f2 row col : Nat} {b : Board}
    (hcell : getCell b row col = -1)
    (Heq : ∀ (g : Nat) (cnt : Nat),
      _count_solutions_helper f1 (setCell b row col (g : Int)) cnt =
      _count_solutions_helper f2 (setCell b row col (g : Int)) cnt) :
    ∀ (gs : List Nat) (st : Board × Nat × Bool), (st.1 = b ∧ st.2.2 = false) →
      gs.foldl (countStep f1 row col) st = gs.foldl (countStep f2 row col) st := by
  intro gs
  induction gs with
  | nil => intro st _; rfl
  | cons g gs ih =>
    intro st hst
    rw [List.foldl_cons, List.foldl_cons]
    have hstep : countStep f1 row col st g = countStep f2 row col st g := by
      obtain ⟨hb, hflag⟩ := hst
      unfold countStep
      rw [hflag]
      simp only [Bool.false_eq_true, if_false]
      rw [hb]
      by_cases hv : is_valid b (g : Int) row col = true
      · rw [if_pos hv, if_pos hv, Heq g st.2.1]
      · rw [if_neg hv, if_neg hv]
    rw [hstep]
    have hinv1 := countStep_inv g hcell
      (fun b' cnt => count_helper_state f1 b' cnt) st hst
    rw [hstep] at hinv1
    exact ih _ hinv1

theorem count_helper_fuel_irrelevant :
    ∀ (fuel : Nat) (b : Board) (cnt : Nat), count_empty b < fuel →
      _count_solutions_helper fuel b cnt =
        _count_solutions_helper (count_empty b + 1) b cnt := by
  intro fuel
  induction fuel using Nat.strong_induction_on with
  | _ fuel ih =>
    intro b cnt hfuel
    cases fuel with
    | zero => omega
    | succ f =>
      cases hfe : find_next_empty b with
      | none =>
        rw [count_helper_succ_none hfe,
          show count_empty b + 1 = count_empty b + 1 from rfl,
          count_helper_succ_none hfe]
      | some rc =>
        obtain ⟨row, col⟩ := rc
        have hcell := (find_next_empty_some_cell hfe).2.2
        have hce : 0 < count_empty b := count_empty_pos hcell
        rw [count_helper_succ_some hfe,
          show count_empty b + 1 = (count_empty b) + 1 from rfl,
          count_helper_succ_some hfe]
        apply count_loop_cong hcell ?_ (List.range' 1 9) (b, cnt, false) ⟨rfl, rfl⟩
        intro g cnt'
        have hvne : (g : Int) ≠ -1 := by omega
        have hce1 : count_empty (setCell b row col (g : Int)) + 1 = count_empty b :=
          count_empty_setCell hcell hvne
        have e1 := ih f (by omega) (setCell b row col (g : Int)) cnt' (by omega)
        have e2 := ih (count_empty b) (by omega) (setCell b row col (g : Int)) cnt'
          (by omega)
        rw [e1, ← e2]

/-! ## Parser: the fold's flag and cells -/

theorem wf_row_len {b : Board} (h : WfBoard b) {r : Nat} (hr : r < 9) :
    (b.getD r []).length = 9 := by
  obtain ⟨h1, h2⟩ := h
  have hrb : r < b.length := by omega
  rw [List.getD_eq_getElem?_getD, List.getElem?_eq_getElem hrb, Option.getD_some]
  exact h2 _ (List.getElem_mem hrb)

theorem readStep_pair (m : Char) (pz : Board) (v : Bool) (k : Nat) (ch : Char) :
    readStep m (pz, v) (k, ch) =
      if isDigitChar ch then (setCell pz (k / 9) (k % 9) (digitVal ch), v)
      else if ch != m then (pz, false) else (pz, v) := rfl

theorem read_fold_flag (m : Char) :
    ∀ (s : List Char) (k : Nat) (pz : Board) (v : Bool),
      ((List.enumFrom k s).foldl (readStep m) (pz, v)).2 =
        (v && s.all fun ch => isDigitChar ch || ch == m) := by
  intro s
  induction s with
  | nil => intro k pz v; simp
  | cons ch rest ih =>
    intro k pz v
    rw [List.enumFrom_cons, List.foldl_cons, readStep_pair]
    by_cases hd : isDigitChar ch = true
    · rw [if_pos hd, ih]
      simp [hd]
    · rw [if_neg hd]
      by_cases hm : (ch == m) = true
      · rw [if_neg (by simpa using hm), ih]
        simp [hd, hm]
      · rw [if_pos (by simpa using hm), ih]
        simp [hd, hm]

theorem wf_read_fold (m : Char) :
    ∀ (s : List (Nat × Char)) (pz : Board) (v : Bool), WfBoard pz →
      WfBoard (s.foldl (readStep m) (pz, v)).1 := by
  intro s
  induction s with
  | nil => intro pz v h; exact h
  | cons ic rest ih =>
    intro pz v h
    rw [List.foldl_cons]
    obtain ⟨k, ch⟩ := ic
    rw [readStep_pair]
    by_cases hd : isDigitChar ch = true
    · rw [if_pos hd]
      exact ih _ _ (wf_setCell _ _ _ h)
    · rw [if_neg hd]
      by_cases hm : (ch == m) = true
      · rw [if_neg (by simpa using hm)]
        exact ih _ _ h
      · rw [if_pos (by simpa using hm)]
        exact ih _ _ h

theorem read_fold_cells (m : Char) :
    ∀ (s : List Char) (k : Nat) (pz : Board) (v : Bool), k + s.length ≤ 81 →
      WfBoard pz → ∀ r c, r < 9 → c < 9 →
      getCell ((List.enumFrom k s).foldl (readStep m) (pz, v)).1 r c =
        if k ≤ 9 * r + c ∧ 9 * r + c < k + s.length ∧
            isDigitChar (s.getD (9 * r + c - k) ' ') = true
        then digitVal (s.getD (9 * r + c - k) ' ')
        else getCell pz r c := by
  intro s
  induction s with
  | nil =>
    intro k pz v _ _ r c hr hc
    simp only [List.length_nil, Nat.add_zero]
    rw [if_neg (fun h => by omega)]
    rfl
  | cons ch rest ih =>
    intro k pz v hlen hwf r c hr hc
    rw [List.enumFrom_cons, List.foldl_cons, readStep_pair]
    have hlc : (ch :: rest).length = rest.length + 1 := List.length_cons ch rest
    have hk81 : k < 81 := by omega
    by_cases hd : isDigitChar ch = true
    · rw [if_pos hd]
      rw [ih (k + 1) _ v (by omega) (wf_setCell _ _ _ hwf) r c hr hc]
      rcases Nat.lt_trichotomy (9 * r + c) k with hlt | heq | hgt
      · rw [if_neg (fun h => absurd h.1 (by omega)),
          if_neg (fun h => absurd h.1 (by omega))]
        exact getCell_setCell_ne pz _ (fun he => by omega)
      · have hget0 : (ch :: rest).getD (9 * r + c - k) ' ' = ch := by
          rw [heq, Nat.sub_self, List.getD_cons_zero]
        rw [if_neg (fun h => absurd h.1 (by omega)),
          if_pos ⟨by omega, by omega, by rw [hget0]; exact hd⟩]
        have hrq : r = k / 9 := by omega
        have hcq : c = k % 9 := by omega
        subst hrq hcq
        rw [hget0]
        exact getCell_setCell_self _ (by obtain ⟨h1, _⟩ := hwf; omega)
          (by rw [wf_row_len hwf (by omega)]; omega)
      · have hsub : 9 * r + c - k = (9 * r + c - (k + 1)) + 1 := by omega
        rw [hsub, List.getD_cons_succ]
        by_cases hcond : k + 1 ≤ 9 * r + c ∧ 9 * r + c < k + 1 + rest.length ∧
            isDigitChar (rest.getD (9 * r + c - (k + 1)) ' ') = true
        · rw [if_pos hcond, if_pos ⟨by omega, by omega, hcond.2.2⟩]
        · rw [if_neg hcond,
            if_neg (fun h => hcond ⟨by omega, by omega, h.2.2⟩)]
          exact getCell_setCell_ne pz _ (fun he => by omega)
    · rw [if_neg hd]
      obtain ⟨v', hv'⟩ : ∃ v',
          (if ch != m then ((pz, false) : Board × Bool) else (pz, v)) = (pz, v') := by
        by_cases hm : (ch != m) = true
        · exact ⟨false, if_pos hm⟩
        · exact ⟨v, if_neg hm⟩
      rw [hv']
      rw [ih (k + 1) _ v' (by omega) hwf r c hr hc]
      rcases Nat.lt_trichotomy (9 * r + c) k with hlt | heq | hgt
      · rw [if_neg (fun h => absurd h.1 (by omega)),
          if_neg (fun h => absurd h.1 (by omega))]
      · have hget0 : (ch :: rest).getD (9 * r + c - k) ' ' = ch := by
          rw [heq, Nat.sub_self, List.getD_cons_zero]
        rw [if_neg (fun h => absurd h.1 (by omega)),
          if_neg (fun h => hd (by rw [hget0] at h; exact h.2.2))]
      · have hsub : 9 * r + c - k = (9 * r + c - (k + 1)) + 1 := by omega
        rw [hsub, List.getD_cons_succ]
        by_cases hcond : k + 1 ≤ 9 * r + c ∧ 9 * r + c < k + 1 + rest.length ∧
            isDigitChar (rest.getD (9 * r + c - (k + 1)) ' ') = true
        · rw [if_pos hcond, if_pos ⟨by omega, by omega, hcond.2.2⟩]
        · rw [if_neg hcond,
            if_neg (fun h => hcond ⟨by omega, by omega, h.2.2⟩)]

/-! ## `read_puzzle_from_string`: rejection and success -/

theorem wf_replicate_board :
    WfBoard (List.replicate 9 (List.replicate 9 (-1 : Int))) := by
  constructor
  · simp
  · intro row hrow
    rw [List.eq_of_mem_replicate hrow]
    simp

theorem getD_replicate_lt {α : Type} (a d : α) {n i : Nat} (h : i < n) :
    (List.replicate n a).getD i d = a := by
  rw [List.getD_eq_getElem?_getD, List.getElem?_replicate, if_pos h, Option.getD_some]

theorem getCell_replicate {r c : Nat} (hr : r < 9) (hc : c < 9) :
    getCell (List.replicate 9 (List.replicate 9 (-1 : Int))) r c = -1 := by
  unfold getCell
  rw [getD_replicate_lt _ _ hr, getD_replicate_lt _ _ hc]

theorem read_puzzle_flag (s : List Char) (m : Char) :
    (s.enum.foldl (readStep m)
      (List.replicate 9 (List.replicate 9 (-1 : Int)), true)).2 =
      s.all fun ch => isDigitChar ch || ch == m := by
  have h := read_fold_flag m s 0 (List.replicate 9 (List.replicate 9 (-1 : Int))) true
  simpa using h

theorem read_puzzle_none_iff (s : List Char) (m : Char) :
    read_puzzle_from_string s m = none ↔
      s.length ≠ 81 ∨ ∃ ch ∈ s, ¬(isDigitChar ch = true) ∧ ch ≠ m := by
  unfold read_puzzle_from_string
  by_cases hlen : s.length = 81
  · rw [if_neg (fun h => h hlen)]
    by_cases hall : (s.all fun ch => isDigitChar ch || ch == m) = true
    · have hflag : (!(s.enum.foldl (readStep m)
          (List.replicate 9 (List.replicate 9 (-1 : Int)), true)).2) = false := by
        rw [read_puzzle_flag, hall]
        rfl
      simp only [hflag, Bool.false_eq_true, if_false]
      constructor
      · intro hcontra
        exact absurd hcontra (by simp)
      · rintro (h | ⟨ch, hmem, hnd, hnm⟩)
        · exact absurd hlen h
        · rw [List.all_eq_true] at hall
          have := hall ch hmem
          rw [Bool.or_eq_true] at this
          rcases this with h | h
          · exact absurd h hnd
          · exact absurd (by simpa using h) hnm
    · have hflag : (!(s.enum.foldl (readStep m)
          (List.replicate 9 (List.replicate 9 (-1 : Int)), true)).2) = true := by
        rw [read_puzzle_flag]
        simpa using hall
      simp only [hflag, if_true]
      constructor
      · intro _
        refine Or.inr ?_
        rw [List.all_eq_true] at hall
        push_neg at hall
        obtain ⟨ch, hmem, hbad⟩ := hall
        refine ⟨ch, hmem, ?_, ?_⟩
        · intro hd
          exact hbad (by rw [Bool.or_eq_true]; exact Or.inl hd)
        · intro hm
          exact hbad (by rw [Bool.or_eq_true]; exact Or.inr (by simpa using hm))
      · intro _
        trivial
  · rw [if_pos hlen]
    constructor
    · intro _
      exact Or.inl hlen
    · intro _
      rfl

theorem read_puzzle_some (s : List Char) (m : Char) (hlen : s.length = 81)
    (hok : ∀ ch ∈ s, isDigitChar ch = true ∨ ch = m) :
    ∃ b, read_puzzle_from_string s m = some b ∧ WfBoard b ∧
      ∀ r c, r < 9 → c < 9 →
        getCell b r c =
          if isDigitChar (s.getD (9 * r + c) ' ') = true
          then digitVal (s.getD (9 * r + c) ' ') else -1 := by
  have hall : (s.all fun ch => isDigitChar ch || ch == m) = true := by
    rw [List.all_eq_true]
    intro ch hmem
    rw [Bool.or_eq_true]
    rcases hok ch hmem with h | h
    · exact Or.inl h
    · exact Or.inr (by simpa using h)
  refine ⟨(s.enum.foldl (readStep m)
      (List.replicate 9 (List.replicate 9 (-1 : Int)), true)).1, ?_, ?_, ?_⟩
  · unfold read_puzzle_from_string
    rw [if_neg (fun h => h hlen)]
    have hflag : (!(s.enum.foldl (readStep m)
        (List.replicate 9 (List.replicate 9 (-1 : Int)), true)).2) = false := by
      rw [read_puzzle_flag, hall]
      rfl
    simp only [hflag, Bool.false_eq_true, if_false]
  · exact wf_read_fold m s.enum _ true wf_replicate_board
  · intro r c hr hc
    have h := read_fold_cells m s 0 (List.replicate 9 (List.replicate 9 (-1 : Int)))
      true (by omega) wf_replicate_board r c hr hc
    rw [show List.enumFrom 0 s = s.enum from rfl] at h
    rw [h]
    by_cases hd : isDigitChar (s.getD (9 * r + c - 0) ' ') = true
    · rw [if_pos ⟨by omega, by omega, hd⟩]
      rw [show 9 * r + c - 0 = 9 * r + c from rfl] at hd ⊢
      rw [if_pos hd]
    · rw [if_neg (fun h => hd h.2.2)]
      rw [show 9 * r + c - 0 = 9 * r + c from rfl] at hd
      rw [if_neg hd]
      exact getCell_replicate hr hc

/-! ## Serializer -/

theorem flatMap_congr {α β : Type} (l : List α) (f f' : α → List β)
    (h : ∀ a ∈ l, f a = f' a) : l.flatMap f = l.flatMap f' := by
  induction l with
  | nil => rfl
  | cons a l ih =>
    rw [List.flatMap_cons, List.flatMap_cons, h a (List.mem_cons_self _ _),
      ih (fun x hx => h x (List.mem_cons_of_mem _ hx))]

theorem flatMap_singleton_eq_map {α : Type} (g : Nat → α) (l : List Nat) :
    (l.flatMap fun i => [g i]) = l.map g := by
  induction l with
  | nil => rfl
  | cons a l ih =>
    rw [List.flatMap_cons, ih]
    rfl

theorem flatMap_range_nine {α : Type} (g : Nat → α) :
    ∀ (n s : Nat),
      ((List.range' s n).flatMap fun r => (List.range 9).map fun c => g (9 * r + c)) =
        (List.range' (9 * s) (9 * n)).map g := by
  intro n
  induction n with
  | zero => intro s; rfl
  | succ n ih =>
    intro s
    rw [List.range'_succ, List.flatMap_cons, ih (s + 1)]
    have e1 : 9 * (n + 1) = 9 * n + 9 := by ring
    rw [e1, ← List.range'_append (9 * s) 9 (9 * n) 1, List.map_append]
    have e2 : 9 * s + 1 * 9 = 9 * (s + 1) := by ring
    rw [e2]
    congr 1

theorem char_digit_cases (ch : Char) (h : isDigitChar ch = true) :
    ch = '1' ∨ ch = '2' ∨ ch = '3' ∨ ch = '4' ∨ ch = '5' ∨ ch = '6' ∨
      ch = '7' ∨ ch = '8' ∨ ch = '9' := by
  unfold isDigitChar at h
  rw [Bool.and_eq_true, decide_eq_true_eq, decide_eq_true_eq] at h
  obtain ⟨h1, h2⟩ := h
  rw [Char.le_def] at h1 h2
  have hchar : Char.ofNat ch.toNat = ch := Char.ofNat_toNat ch
  have hlo : 49 ≤ ch.toNat := h1
  have hhi : ch.toNat ≤ 57 := h2
  have h49 : ch.toNat = 49 ∨ ch.toNat = 50 ∨ ch.toNat = 51 ∨ ch.toNat = 52 ∨
      ch.toNat = 53 ∨ ch.toNat = 54 ∨ ch.toNat = 55 ∨ ch.toNat = 56 ∨
      ch.toNat = 57 := by omega
  rcases h49 with h' | h' | h' | h' | h' | h' | h' | h' | h'
  · exact Or.inl (by rw [← hchar, h'])
  · exact Or.inr (Or.inl (by rw [← hchar, h']))
  · exact Or.inr (Or.inr (Or.inl (by rw [← hchar, h'])))
  · exact Or.inr (Or.inr (Or.inr (Or.inl (by rw [← hchar, h']))))
  · exact Or.inr (Or.inr (Or.inr (Or.inr (Or.inl (by rw [← hchar, h'])))))
  · exact Or.inr (Or.inr (Or.inr (Or.inr (Or.inr (Or.inl
      (by rw [← hchar, h']))))))
  · exact Or.inr (Or.inr (Or.inr (Or.inr (Or.inr (Or.inr (Or.inl
      (by rw [← hchar, h'])))))))
  · exact Or.inr (Or.inr (Or.inr (Or.inr (Or.inr (Or.inr (Or.inr (Or.inl
      (by rw [← hchar, h']))))))))
  · exact Or.inr (Or.inr (Or.inr (Or.inr (Or.inr (Or.inr (Or.inr (Or.inr
      (by rw [← hchar, h']))))))))

theorem serialize_digit (ch : Char) (h : isDigitChar ch = true) :
    (toString (digitVal ch)).data = [ch] := by
  rcases char_digit_cases ch h with rfl | rfl | rfl | rfl | rfl | rfl | rfl | rfl | rfl <;>
    decide

theorem digitVal_bounds (ch : Char) (h : isDigitChar ch = true) :
    1 ≤ digitVal ch ∧ digitVal ch ≤ 9 := by
  rcases char_digit_cases ch h with rfl | rfl | rfl | rfl | rfl | rfl | rfl | rfl | rfl <;>
    exact ⟨by decide, by decide⟩

theorem puzzle_to_string_eq_map (b : Board) (m : Char) (g : Nat → Char)
    (h : ∀ r c, r < 9 → c < 9 →
      (if getCell b r c != -1 then (toString (getCell b r c)).data else [m]) =
        [g (9 * r + c)]) :
    puzzle_to_string b m = (List.range 81).map g := by
  unfold puzzle_to_string
  have hinner : ∀ r ∈ List.range 9,
      ((List.range 9).flatMap fun c =>
        if getCell b r c != -1 then (toString (getCell b r c)).data else [m]) =
      (List.range 9).map fun c => g (9 * r + c) := by
    intro r hr
    rw [List.mem_range] at hr
    rw [flatMap_congr (List.range 9) _ (fun c => [g (9 * r + c)])
      (fun c hc => h r c hr (List.mem_range.1 hc))]
    exact flatMap_singleton_eq_map _ _
  rw [flatMap_congr (List.range 9) _ _ hinner]
  have hnine := flatMap_range_nine g 9 0
  simp only [Nat.mul_zero] at hnine
  rw [List.range_eq_range'] at hnine ⊢
  rw [hnine, show (9 * 9 : Nat) = 81 from rfl,
    show List.range' 0 81 = List.range 81 from (List.range_eq_range' 81).symm]

/-! ## Round trip: serialize after parse -/

theorem read_then_serialize (s : List Char) (m : Char) (hlen : s.length = 81)
    (hok : ∀ ch ∈ s, isDigitChar ch = true ∨ ch = m) :
    ∃ b, read_puzzle_from_string s m = some b ∧ puzzle_to_string b m = s := by
  obtain ⟨b, hread, hwf, hcells⟩ := read_puzzle_some s m hlen hok
  refine ⟨b, hread, ?_⟩
  have hchar : ∀ r c, r < 9 → c < 9 →
      (if getCell b r c != -1 then (toString (getCell b r c)).data else [m]) =
        [s.getD (9 * r + c) ' '] := by
    intro r c hr hc
    rw [hcells r c hr hc]
    by_cases hd : isDigitChar (s.getD (9 * r + c) ' ') = true
    · rw [if_pos hd]
      have hb := digitVal_bounds _ hd
      rw [if_pos (by rw [bne_iff_ne]; omega)]
      exact serialize_digit _ hd
    · rw [if_neg hd]
      rw [if_neg (by simp)]
      have hlt : 9 * r + c < s.length := by omega
      have hmem : s.getD (9 * r + c) ' ' ∈ s := by
        rw [List.getD_eq_getElem?_getD, List.getElem?_eq_getElem hlt, Option.getD_some]
        exact List.getElem_mem hlt
      rcases hok _ hmem with h | h
      · exact absurd h hd
      · rw [h]
  rw [puzzle_to_string_eq_map b m (fun t => s.getD t ' ') hchar]
  apply List.ext_getElem
  · simp [hlen]
  · intro n h1 h2
    rw [List.getElem_map, List.getElem_range]
    have hn : n < s.length := h2
    rw [List.getD_eq_getElem?_getD, List.getElem?_eq_getElem hn, Option.getD_some]

/-! ## Candidate sets: `get_possible_values` -/

theorem two_le_count_of_getD {x : Int} :
    ∀ (l : List Int) (i j : Nat), i < j → j < l.length →
      l.getD i 0 = x → l.getD j 0 = x → 2 ≤ l.count x := by
  intro l
  induction l with
  | nil => intro i j _ hj _ _; simp at hj
  | cons a t ih =>
    intro i j hij hj h1 h2
    cases i with
    | zero =>
      rw [List.getD_cons_zero] at h1
      cases j with
      | zero => omega
      | succ j =>
        rw [List.getD_cons_succ] at h2
        have hjt : j < t.length := by simpa using hj
        have hmem : x ∈ t := by
          rw [List.getD_eq_getElem?_getD, List.getElem?_eq_getElem hjt,
            Option.getD_some] at h2
          exact h2 ▸ List.getElem_mem hjt
        have hpos := List.count_pos_iff.2 hmem
        rw [List.count_cons]
        simp only [h1, beq_self_eq_true, if_true]
        omega
    | succ i =>
      cases j with
      | zero => omega
      | succ j =>
        rw [List.getD_cons_succ] at h1 h2
        have := ih i j (by omega) (by simpa using hj) h1 h2
        rw [List.count_cons]
        omega

theorem rowCells_getD {b : Board} {r c' : Nat} (hc' : c' < 9) :
    (rowCells b r).getD c' 0 = getCell b r c' := by
  unfold rowCells
  rw [List.getD_eq_getElem?_getD,
    List.getElem?_eq_getElem (by rw [List.length_map, List.length_range]; omega),
    Option.getD_some, List.getElem_map, List.getElem_range]

theorem colCells_getD {b : Board} {c r' : Nat} (hr' : r' < 9) :
    (colCells b c).getD r' 0 = getCell b r' c := by
  unfold colCells
  rw [List.getD_eq_getElem?_getD,
    List.getElem?_eq_getElem (by rw [List.length_map, List.length_range]; omega),
    Option.getD_some, List.getElem_map, List.getElem_range]

theorem boxCells_getD {b : Board} {br bc k : Nat} (hk : k < 9) :
    (boxCells b br bc).getD k 0 = getCell b (br * 3 + k / 3) (bc * 3 + k % 3) := by
  rw [boxCells_eq_map]
  rw [List.getD_eq_getElem?_getD,
    List.getElem?_eq_getElem (by rw [List.length_map, List.length_range]; omega),
    Option.getD_some, List.getElem_map, List.getElem_range]

theorem is_valid_iff_counts {b : Board} {r c : Nat} {v : Int}
    (hr9 : r < 9) (hc9 : c < 9) (hcell : getCell b r c = -1)
    (hv1 : 1 ≤ v) (hv9 : v ≤ 9) :
    is_valid b v r c = true ↔
      ((rowCells (setCell b r c v) r).count v ≤ 1 ∧
       (colCells (setCell b r c v) c).count v ≤ 1 ∧
       (boxCells (setCell b r c v) (r / 3) (c / 3)).count v ≤ 1) := by
  obtain ⟨hr, hcl⟩ := cell_empty_in_range hcell
  have hvne : v ≠ -1 := by omega
  have hself : getCell (setCell b r c v) r c = v := getCell_setCell_self v hr hcl
  rw [is_valid_iff]
  constructor
  · rintro ⟨hv1', hv2', hv3'⟩
    refine ⟨?_, ?_, ?_⟩
    · rw [rowCells_setCell_self v hc9 hr hcl]
      have hlen : c < (rowCells b r).length := by
        rw [rowCells, List.length_map, List.length_range]; omega
      rw [List.count_set v v _ _ hlen]
      have hz : (rowCells b r).count v = 0 := by
        apply count_notin_zero
        intro hmem
        rw [rowCells, List.mem_map] at hmem
        obtain ⟨c', hc', he⟩ := hmem
        rw [List.mem_range] at hc'
        have := hv1' c' hc' he
        subst this
        rw [hcell] at he
        omega
      rw [hz]
      have : ((rowCells b r)[c] == v) = false := by
        rw [beq_eq_false_iff_ne]
        rw [show (rowCells b r)[c] = getCell b r c from by
          simp only [rowCells, List.getElem_map, List.getElem_range], hcell]
        omega
      rw [this]
      simp
    · rw [colCells_setCell_self v hr9 hr hcl]
      have hlen : r < (colCells b c).length := by
        rw [colCells, List.length_map, List.length_range]; omega
      rw [List.count_set v v _ _ hlen]
      have hz : (colCells b c).count v = 0 := by
        apply count_notin_zero
        intro hmem
        rw [colCells, List.mem_map] at hmem
        obtain ⟨r', hr', he⟩ := hmem
        rw [List.mem_range] at hr'
        have := hv2' r' hr' he
        subst this
        rw [hcell] at he
        omega
      rw [hz]
      have : ((colCells b c)[r] == v) = false := by
        rw [beq_eq_false_iff_ne]
        rw [show (colCells b c)[r] = getCell b r c from by
          simp only [colCells, List.getElem_map, List.getElem_range], hcell]
        omega
      rw [this]
      simp
    · rw [boxCells_setCell_self v hr9 hc9 hr hcl]
      have hlen : r % 3 * 3 + c % 3 < (boxCells b (r / 3) (c / 3)).length := by
        rw [boxCells_eq_map, List.length_map, List.length_range]; omega
      rw [List.count_set v v _ _ hlen]
      have e1 : r / 3 * 3 + (r % 3 * 3 + c % 3) / 3 = r := by omega
      have e2 : c / 3 * 3 + (r % 3 * 3 + c % 3) % 3 = c := by omega
      have hz : (boxCells b (r / 3) (c / 3)).count v = 0 := by
        apply count_notin_zero
        intro hmem
        rw [boxCells_eq_map, List.mem_map] at hmem
        obtain ⟨k, hk, he⟩ := hmem
        rw [List.mem_range] at hk
        obtain ⟨he1, he2⟩ := hv3' (k / 3) (by omega) (k % 3) (by omega) he
        have : getCell b r c = v := by rw [← he1, ← he2]; exact he
        rw [hcell] at this
        omega
      rw [hz]
      have : ((boxCells b (r / 3) (c / 3))[r % 3 * 3 + c % 3] == v) = false := by
        rw [beq_eq_false_iff_ne]
        rw [show (boxCells b (r / 3) (c / 3))[r % 3 * 3 + c % 3] = getCell b r c from by
          simp only [boxCells_eq_map, List.getElem_map, List.getElem_range]
          rw [e1, e2]]
        rw [hcell]
        omega
      rw [this]
      simp
  · rintro ⟨hcr, hcc, hcb⟩
    refine ⟨?_, ?_, ?_⟩
    · intro c' hc' hvc'
      by_contra hne
      have hpos1 : (rowCells (setCell b r c v) r).getD c 0 = v := by
        rw [rowCells_getD hc9, hself]
      have hpos2 : (rowCells (setCell b r c v) r).getD c' 0 = v := by
        rw [rowCells_getD hc', getCell_setCell_ne b v (fun he => hne he.2.symm), hvc']
      have hlen : (rowCells (setCell b r c v) r).length = 9 := by
        rw [rowCells, List.length_map, List.length_range]
      rcases Nat.lt_or_ge c c' with hlt | hge
      · have := two_le_count_of_getD _ c c' hlt (by omega) hpos1 hpos2
        omega
      · have hlt : c' < c := by omega
        have := two_le_count_of_getD _ c' c hlt (by omega) hpos2 hpos1
        omega
    · intro r' hr' hvr'
      by_contra hne
      have hpos1 : (colCells (setCell b r c v) c).getD r 0 = v := by
        rw [colCells_getD hr9, hself]
      have hpos2 : (colCells (setCell b r c v) c).getD r' 0 = v := by
        rw [colCells_getD hr', getCell_setCell_ne b v (fun he => hne he.1.symm), hvr']
      have hlen : (colCells (setCell b r c v) c).length = 9 := by
        rw [colCells, List.length_map, List.length_range]
      rcases Nat.lt_or_ge r r' with hlt | hge
      · have := two_le_count_of_getD _ r r' hlt (by omega) hpos1 hpos2
        omega
      · have hlt : r' < r := by omega
        have := two_le_count_of_getD _ r' r hlt (by omega) hpos2 hpos1
        omega
    · intro i hi j hj hvb
      by_contra hne
      have hk1 : r % 3 * 3 + c % 3 < 9 := by omega
      have hk2 : i * 3 + j < 9 := by omega
      have e1 : r / 3 * 3 + (r % 3 * 3 + c % 3) / 3 = r := by omega
      have e2 : c / 3 * 3 + (r % 3 * 3 + c % 3) % 3 = c := by omega
      have e3 : r / 3 * 3 + (i * 3 + j) / 3 = r / 3 * 3 + i := by omega
      have e4 : c / 3 * 3 + (i * 3 + j) % 3 = c / 3 * 3 + j := by omega
      have hpos1 : (boxCells (setCell b r c v) (r / 3) (c / 3)).getD
          (r % 3 * 3 + c % 3) 0 = v := by
        rw [boxCells_getD hk1, e1, e2, hself]
      have hkne : i * 3 + j ≠ r % 3 * 3 + c % 3 := by
        intro he
        apply hne
        constructor <;> omega
      have hpos2 : (boxCells (setCell b r c v) (r / 3) (c / 3)).getD (i * 3 + j) 0 =
          v := by
        rw [boxCells_getD hk2, e3, e4,
          getCell_setCell_ne b v (fun he => hne ⟨by omega, by omega⟩), hvb]
      have hlen : (boxCells (setCell b r c v) (r / 3) (c / 3)).length = 9 := by
        rw [boxCells_eq_map, List.length_map, List.length_range]
      rcases Nat.lt_trichotomy (r % 3 * 3 + c % 3) (i * 3 + j) with hlt | heq | hgt
      · have := two_le_count_of_getD _ _ _ hlt (by omega) hpos1 hpos2
        omega
      · exact hkne heq.symm
      · have := two_le_count_of_getD _ _ _ hgt (by omega) hpos2 hpos1
        omega

theorem get_possible_values_spec (b : Board) (r c : Nat)
    (hr : r < 9) (hc : c < 9) :
    (getCell b r c ≠ -1 → get_possible_values b r c = ∅) ∧
    (getCell b r c = -1 → ∀ v : Int,
      (v ∈ get_possible_values b r c ↔
        1 ≤ v ∧ v ≤ 9 ∧
        (rowCells (setCell b r c v) r).count v ≤ 1 ∧
        (colCells (setCell b r c v) c).count v ≤ 1 ∧
        (boxCells (setCell b r c v) (r / 3) (c / 3)).count v ≤ 1)) := by
  constructor
  · intro hfill
    unfold get_possible_values
    rw [if_pos hfill]
  · intro hcell v
    unfold get_possible_values
    rw [if_neg (fun hne => hne hcell)]
    rw [Finset.mem_filter, Finset.mem_Icc]
    constructor
    · rintro ⟨⟨h1, h9⟩, hval⟩
      exact ⟨h1, h9, (is_valid_iff_counts hr hc hcell h1 h9).1 hval⟩
    · rintro ⟨h1, h9, hcounts⟩
      exact ⟨⟨h1, h9⟩, (is_valid_iff_counts hr hc hcell h1 h9).2 hcounts⟩

/-! ## The solution space of a grid -/

/-- The board denoted by a total assignment of digits: cell `(r, c)` holds
`s r c + 1 ∈ {1, …, 9}`. -/
def toBoard (s : Fin 9 → Fin 9 → Fin 9) : Board :=
  (List.finRange 9).map fun r =>
    (List.finRange 9).map fun c => ((s r c : Nat) : Int) + 1

/-- Following the spec's words ("the true number of distinct solutions"):
a solution of grid `g` is a full assignment of digits 1–9 that passes the
row/column/box uniqueness check and agrees with every pre-filled cell of
`g`. -/
def IsSolutionOf (g : Board) (s : Fin 9 → Fin 9 → Fin 9) : Prop :=
  is_board_valid (toBoard s) = true ∧
  ∀ r c : Fin 9, getCell g r c ≠ -1 → getCell (toBoard s) r c = getCell g r c

instance (g : Board) (s : Fin 9 → Fin 9 → Fin 9) : Decidable (IsSolutionOf g s) := by
  unfold IsSolutionOf
  infer_instance

/-- The number of distinct solutions of a grid (spec-side definition). -/
def numSolutions (g : Board) : Nat :=
  (Finset.univ.filter fun s : Fin 9 → Fin 9 → Fin 9 => IsSolutionOf g s).card

theorem getD_map_finRange {α : Type} (f : Fin 9 → α) (d : α) (i : Nat)
    (hi : i < 9) : ((List.finRange 9).map f).getD i d = f ⟨i, hi⟩ := by
  rw [List.getD_eq_getElem?_getD,
    List.getElem?_eq_getElem (by rw [List.length_map, List.length_finRange]; omega),
    Option.getD_some, List.getElem_map, List.getElem_finRange]
  rfl

theorem getCell_toBoard (s : Fin 9 → Fin 9 → Fin 9) (r c : Nat)
    (hr : r < 9) (hc : c < 9) :
    getCell (toBoard s) r c = ((s ⟨r, hr⟩ ⟨c, hc⟩ : Nat) : Int) + 1 := by
  unfold getCell toBoard
  rw [getD_map_finRange _ _ _ hr, getD_map_finRange _ _ _ hc]

theorem wf_toBoard (s : Fin 9 → Fin 9 → Fin 9) : WfBoard (toBoard s) := by
  constructor
  · rw [toBoard, List.length_map, List.length_finRange]
  · intro row hrow
    rw [toBoard, List.mem_map] at hrow
    obtain ⟨r, -, hrw⟩ := hrow
    rw [← hrw, List.length_map, List.length_finRange]

theorem board_ext {b1 b2 : Board} (h1 : WfBoard b1) (h2 : WfBoard b2)
    (h : ∀ r c, r < 9 → c < 9 → getCell b1 r c = getCell b2 r c) : b1 = b2 := by
  obtain ⟨h1l, h1r⟩ := h1
  obtain ⟨h2l, h2r⟩ := h2
  apply List.ext_getElem (by omega)
  intro r hr1 hr2
  have hr9 : r < 9 := by omega
  have e1 : b1.getD r [] = b1[r] := by
    rw [List.getD_eq_getElem?_getD, List.getElem?_eq_getElem hr1, Option.getD_some]
  have e2 : b2.getD r [] = b2[r] := by
    rw [List.getD_eq_getElem?_getD, List.getElem?_eq_getElem hr2, Option.getD_some]
  have hl1 : b1[r].length = 9 := h1r _ (List.getElem_mem hr1)
  have hl2 : b2[r].length = 9 := h2r _ (List.getElem_mem hr2)
  apply List.ext_getElem (by omega)
  intro c hc1 hc2
  have hc9 : c < 9 := by omega
  have := h r c hr9 hc9
  unfold getCell at this
  rw [e1, e2] at this
  rw [List.getD_eq_getElem?_getD, List.getElem?_eq_getElem hc1, Option.getD_some] at this
  rw [List.getD_eq_getElem?_getD, List.getElem?_eq_getElem hc2, Option.getD_some] at this
  exact this

/-- Whatever values a board holds are either empty or digits 1–9. -/
def cellsInRange (b : Board) : Prop :=
  ∀ r < 9, ∀ c < 9,
    getCell b r c = -1 ∨ (1 ≤ getCell b r c ∧ getCell b r c ≤ 9)

instance (b : Board) : Decidable (cellsInRange b) := by
  unfold cellsInRange
  infer_instance

theorem numSolutions_of_full {g : Board} (hwf : WfBoard g) (hrange : cellsInRange g)
    (hfull : find_next_empty g = none) (hvalid : is_board_valid g = true) :
    numSolutions g = 1 := by
  rw [find_next_empty_eq_none_iff] at hfull
  have hcellrange : ∀ r c : Fin 9,
      1 ≤ getCell g r c ∧ getCell g r c ≤ 9 := by
    intro r c
    rcases hrange r r.isLt c c.isLt with h | h
    · exact absurd h (hfull r c r.isLt c.isLt)
    · exact h
  have hs0lt : ∀ r c : Fin 9, ((getCell g r c).toNat - 1) % 9 < 9 :=
    fun r c => Nat.mod_lt _ (by omega)
  set s0 : Fin 9 → Fin 9 → Fin 9 :=
    fun r c => ⟨((getCell g r c).toNat - 1) % 9, hs0lt r c⟩ with hs0
  have hcell_eq : ∀ r c : Fin 9, ((s0 r c : Nat) : Int) + 1 = getCell g r c := by
    intro r c
    obtain ⟨hl, hh⟩ := hcellrange r c
    simp only [hs0]
    have htn : 1 ≤ (getCell g r c).toNat ∧ (getCell g r c).toNat ≤ 9 := by omega
    have hmod : ((getCell g r c).toNat - 1) % 9 = (getCell g r c).toNat - 1 :=
      Nat.mod_eq_of_lt (by omega)
    simp only [hmod]
    omega
  have htb : toBoard s0 = g :=
    board_ext (wf_toBoard s0) hwf (fun r c hr hc => by
      rw [getCell_toBoard s0 r c hr hc]
      exact hcell_eq ⟨r, hr⟩ ⟨c, hc⟩)
  unfold numSolutions
  rw [Finset.card_eq_one]
  refine ⟨s0, ?_⟩
  ext s
  rw [Finset.mem_filter, Finset.mem_singleton]
  constructor
  · rintro ⟨-, hvs, hag⟩
    funext r c
    have h1 := hfull r c r.isLt c.isLt
    have h2 : getCell (toBoard s) r c = getCell g r c := hag r c h1
    rw [getCell_toBoard s r c r.isLt c.isLt] at h2
    simp only [Fin.eta] at h2
    have h3 := hcell_eq r c
    apply Fin.ext
    omega
  · rintro rfl
    have hsol : IsSolutionOf g s0 := by
      constructor
      · rw [htb]
        exact hvalid
      · intro r c _
        rw [htb]
    exact ⟨by simp, hsol⟩

theorem isValid_of_solution {g : Board} {s : Fin 9 → Fin 9 → Fin 9} {r c : Nat}
    (hr : r < 9) (hc : c < 9)
    (hsol : IsSolutionOf g s) (hcell : getCell g r c = -1) :
    is_valid g (((s ⟨r, hr⟩ ⟨c, hc⟩ : Nat) : Int) + 1) r c = true := by
  obtain ⟨hvb, hag⟩ := hsol
  rw [is_valid_iff]
  rw [is_board_valid_iff] at hvb
  obtain ⟨hrow, hcol, hbox⟩ := hvb
  have hvpos : (1 : Int) ≤ ((s ⟨r, hr⟩ ⟨c, hc⟩ : Nat) : Int) + 1 := by omega
  have hvne : ((s ⟨r, hr⟩ ⟨c, hc⟩ : Nat) : Int) + 1 ≠ -1 := by omega
  have hself : getCell (toBoard s) r c = ((s ⟨r, hr⟩ ⟨c, hc⟩ : Nat) : Int) + 1 :=
    getCell_toBoard s r c hr hc
  refine ⟨?_, ?_, ?_⟩
  · intro c' hc' he
    by_contra hne
    have hgne : getCell g r c' ≠ -1 := by rw [he]; omega
    have h2 : getCell (toBoard s) r c' = getCell g r c' := hag ⟨r, hr⟩ ⟨c', hc'⟩ hgne
    have hpos1 : (rowCells (toBoard s) r).getD c 0 =
        ((s ⟨r, hr⟩ ⟨c, hc⟩ : Nat) : Int) + 1 := by
      rw [rowCells_getD hc, hself]
    have hpos2 : (rowCells (toBoard s) r).getD c' 0 =
        ((s ⟨r, hr⟩ ⟨c, hc⟩ : Nat) : Int) + 1 := by
      rw [rowCells_getD hc', h2, he]
    have hlen : (rowCells (toBoard s) r).length = 9 := by
      rw [rowCells, List.length_map, List.length_range]
    have hcount := hrow r hr (((s ⟨r, hr⟩ ⟨c, hc⟩ : Nat) : Int) + 1) hvne
    rcases Nat.lt_trichotomy c c' with hlt | heq | hgt
    · have := two_le_count_of_getD _ c c' hlt (by omega) hpos1 hpos2
      omega
    · exact hne heq.symm
    · have := two_le_count_of_getD _ c' c hgt (by omega) hpos2 hpos1
      omega
  · intro r' hr' he
    by_contra hne
    have hgne : getCell g r' c ≠ -1 := by rw [he]; omega
    have h2 : getCell (toBoard s) r' c = getCell g r' c := hag ⟨r', hr'⟩ ⟨c, hc⟩ hgne
    have hpos1 : (colCells (toBoard s) c).getD r 0 =
        ((s ⟨r, hr⟩ ⟨c, hc⟩ : Nat) : Int) + 1 := by
      rw [colCells_getD hr, hself]
    have hpos2 : (colCells (toBoard s) c).getD r' 0 =
        ((s ⟨r, hr⟩ ⟨c, hc⟩ : Nat) : Int) + 1 := by
      rw [colCells_getD hr', h2, he]
    have hlen : (colCells (toBoard s) c).length = 9 := by
      rw [colCells, List.length_map, List.length_range]
    have hcount := hcol c hc (((s ⟨r, hr⟩ ⟨c, hc⟩ : Nat) : Int) + 1) hvne
    rcases Nat.lt_trichotomy r r' with hlt | heq | hgt
    · have := two_le_count_of_getD _ r r' hlt (by omega) hpos1 hpos2
      omega
    · exact hne heq.symm
    · have := two_le_count_of_getD _ r' r hgt (by omega) hpos2 hpos1
      omega
  · intro i hi j hj he
    by_contra hne
    have hrij : r / 3 * 3 + i < 9 := by omega
    have hcij : c / 3 * 3 + j < 9 := by omega
    have hgne : getCell g (r / 3 * 3 + i) (c / 3 * 3 + j) ≠ -1 := by rw [he]; omega
    have h2 : getCell (toBoard s) (r / 3 * 3 + i) (c / 3 * 3 + j) =
        getCell g (r / 3 * 3 + i) (c / 3 * 3 + j) :=
      hag ⟨r / 3 * 3 + i, hrij⟩ ⟨c / 3 * 3 + j, hcij⟩ hgne
    have hk1 : r % 3 * 3 + c % 3 < 9 := by omega
    have hk2 : i * 3 + j < 9 := by omega
    have e1 : r / 3 * 3 + (r % 3 * 3 + c % 3) / 3 = r := by omega
    have e2 : c / 3 * 3 + (r % 3 * 3 + c % 3) % 3 = c := by omega
    have e3 : r / 3 * 3 + (i * 3 + j) / 3 = r / 3 * 3 + i := by omega
    have e4 : c / 3 * 3 + (i * 3 + j) % 3 = c / 3 * 3 + j := by omega
    have hpos1 : (boxCells (toBoard s) (r / 3) (c / 3)).getD (r % 3 * 3 + c % 3) 0 =
        ((s ⟨r, hr⟩ ⟨c, hc⟩ : Nat) : Int) + 1 := by
      rw [boxCells_getD hk1, e1, e2, hself]
    have hpos2 : (boxCells (toBoard s) (r / 3) (c / 3)).getD (i * 3 + j) 0 =
        ((s ⟨r, hr⟩ ⟨c, hc⟩ : Nat) : Int) + 1 := by
      rw [boxCells_getD hk2, e3, e4, h2, he]
    have hlen : (boxCells (toBoard s) (r / 3) (c / 3)).length = 9 := by
      rw [boxCells_eq_map, List.length_map, List.length_range]
    have hcount := hbox (r / 3) (by omega) (c / 3) (by omega)
      (((s ⟨r, hr⟩ ⟨c, hc⟩ : Nat) : Int) + 1) hvne
    have hkne : r % 3 * 3 + c % 3 ≠ i * 3 + j := by
      intro hke
      apply hne
      constructor <;> omega
    rcases Nat.lt_trichotomy (r % 3 * 3 + c % 3) (i * 3 + j) with hlt | heq | hgt
    · have := two_le_count_of_getD _ _ _ hlt (by omega) hpos1 hpos2
      omega
    · exact hkne heq
    · have := two_le_count_of_getD _ _ _ hgt (by omega) hpos2 hpos1
      omega

theorem isSolution_setCell_iff {g : Board} {r c : Nat} {v : Nat}
    (hr : r < 9) (hc : c < 9) (hcell : getCell g r c = -1)
    (hv1 : 1 ≤ v) (hv9 : v ≤ 9) (s : Fin 9 → Fin 9 → Fin 9) :
    IsSolutionOf (setCell g r c (v : Int)) s ↔
      (IsSolutionOf g s ∧ (s ⟨r, hr⟩ ⟨c, hc⟩ : Nat) + 1 = v) := by
  obtain ⟨hrb, hcb⟩ := cell_empty_in_range hcell
  have hsc : getCell (setCell g r c (v : Int)) r c = (v : Int) :=
    getCell_setCell_self _ hrb hcb
  constructor
  · rintro ⟨hvb, hag⟩
    have hsrc : getCell (toBoard s) r c = getCell (setCell g r c (v : Int)) r c :=
      hag ⟨r, hr⟩ ⟨c, hc⟩ (by rw [hsc]; omega)
    rw [hsc, getCell_toBoard s r c hr hc] at hsrc
    refine ⟨⟨hvb, ?_⟩, by omega⟩
    intro r' c' hne'
    have hneq : ¬(r = (r' : Nat) ∧ c = (c' : Nat)) := by
      rintro ⟨he1, he2⟩
      apply hne'
      rw [← he1, ← he2]
      exact hcell
    have h3 : getCell (toBoard s) r' c' = getCell (setCell g r c (v : Int)) r' c' :=
      hag r' c' (by rw [getCell_setCell_ne g _ hneq]; exact hne')
    rw [getCell_setCell_ne g _ hneq] at h3
    exact h3
  · rintro ⟨⟨hvb, hag⟩, hval⟩
    refine ⟨hvb, ?_⟩
    intro r' c' hne'
    by_cases hsame : r = (r' : Nat) ∧ c = (c' : Nat)
    · obtain ⟨he1, he2⟩ := hsame
      have hset : getCell (setCell g r c (v : Int)) r' c' = (v : Int) := by
        rw [← he1, ← he2]
        exact hsc
      rw [hset]
      have hfin1 : (⟨r, hr⟩ : Fin 9) = r' := Fin.ext he1
      have hfin2 : (⟨c, hc⟩ : Fin 9) = c' := Fin.ext he2
      rw [hfin1, hfin2] at hval
      have := getCell_toBoard s r' c' r'.isLt c'.isLt
      simp only [Fin.eta] at this
      rw [this]
      omega
    · have h3 : getCell (toBoard s) r' c' = getCell g r' c' :=
        hag r' c' (by rw [getCell_setCell_ne g _ hsame] at hne'; exact hne')
      rw [getCell_setCell_ne g _ hsame]
      exact h3

theorem numSolutions_partition {g : Board} {r c : Nat}
    (hr : r < 9) (hc : c < 9) (hcell : getCell g r c = -1) :
    numSolutions g =
      ∑ v ∈ (Finset.Icc 1 9).filter (fun v : Nat => is_valid g (v : Int) r c = true),
        numSolutions (setCell g r c (v : Int)) := by
  have hdisj : ∀ v1 ∈ (Finset.Icc 1 9).filter
      (fun v : Nat => is_valid g (v : Int) r c = true),
      ∀ v2 ∈ (Finset.Icc 1 9).filter
        (fun v : Nat => is_valid g (v : Int) r c = true), v1 ≠ v2 →
      Disjoint
        (Finset.univ.filter fun s : Fin 9 → Fin 9 → Fin 9 =>
          IsSolutionOf (setCell g r c (v1 : Int)) s)
        (Finset.univ.filter fun s : Fin 9 → Fin 9 → Fin 9 =>
          IsSolutionOf (setCell g r c (v2 : Int)) s) := by
    intro v1 hm1 v2 hm2 hne
    obtain ⟨hb1, -⟩ := Finset.mem_filter.1 hm1
    obtain ⟨hb2, -⟩ := Finset.mem_filter.1 hm2
    rw [Finset.mem_Icc] at hb1 hb2
    rw [Finset.disjoint_left]
    intro s hs1 hs2
    simp only [Finset.mem_filter, Finset.mem_univ, true_and] at hs1 hs2
    rw [isSolution_setCell_iff hr hc hcell hb1.1 hb1.2] at hs1
    rw [isSolution_setCell_iff hr hc hcell hb2.1 hb2.2] at hs2
    exact hne (hs1.2 ▸ hs2.2)
  unfold numSolutions
  have hset : (Finset.univ.filter fun s : Fin 9 → Fin 9 → Fin 9 => IsSolutionOf g s) =
      ((Finset.Icc 1 9).filter
        (fun v : Nat => is_valid g (v : Int) r c = true)).biUnion
        (fun v => Finset.univ.filter fun s : Fin 9 → Fin 9 → Fin 9 =>
          IsSolutionOf (setCell g r c (v : Int)) s) := by
    ext s
    simp only [Finset.mem_filter, Finset.mem_biUnion, Finset.mem_univ, true_and,
      Finset.mem_Icc]
    constructor
    · intro hsol
      have hvlt := (s ⟨r, hr⟩ ⟨c, hc⟩).isLt
      refine ⟨(s ⟨r, hr⟩ ⟨c, hc⟩ : Nat) + 1, ⟨⟨by omega, by omega⟩, ?_⟩, ?_⟩
      · have hval := isValid_of_solution hr hc hsol hcell
        have hcast : (((s ⟨r, hr⟩ ⟨c, hc⟩ : Nat) + 1 : Nat) : Int) =
            ((s ⟨r, hr⟩ ⟨c, hc⟩ : Nat) : Int) + 1 := by omega
        rw [hcast]
        exact hval
      · rw [isSolution_setCell_iff hr hc hcell (by omega) (by omega)]
        exact ⟨hsol, rfl⟩
    · rintro ⟨v, ⟨⟨hv1, hv9⟩, -⟩, hsolv⟩
      rw [isSolution_setCell_iff hr hc hcell hv1 hv9] at hsolv
      exact hsolv.1
  rw [hset, Finset.card_biUnion hdisj]

theorem filter_sum_list_finset (p : Nat → Bool) (f : Nat → Nat) :
    (((List.range' 1 9).filter p).map f).sum =
      ∑ v ∈ (Finset.Icc 1 9).filter (fun v => p v = true), f v := by
  have hnodup : (List.range' 1 9).Nodup := List.nodup_range' 1 9
  have hfnodup : ((List.range' 1 9).filter p).Nodup := List.Nodup.filter p hnodup
  rw [← List.sum_toFinset f hfnodup, List.toFinset_filter]
  congr 1

theorem count_loop_sum {fuel row col : Nat} {b : Board}
    (hcell : getCell b row col = -1)
    (hrec : ∀ g : Nat, 1 ≤ g → g ≤ 9 → is_valid b (g : Int) row col = true →
      ∀ cnt, _count_solutions_helper fuel (setCell b row col (g : Int)) cnt =
        (setCell b row col (g : Int),
          cnt + numSolutions (setCell b row col (g : Int)), false)) :
    ∀ (gs : List Nat), (∀ g ∈ gs, 1 ≤ g ∧ g ≤ 9) → ∀ (cnt : Nat),
      gs.foldl (countStep fuel row col) (b, cnt, false) =
        (b, cnt + (((gs.filter fun g : Nat => is_valid b (g : Int) row col).map
          fun g : Nat => numSolutions (setCell b row col (g : Int))).sum), false) := by
  intro gs
  induction gs with
  | nil => intro _ cnt; simp
  | cons g gs ih =>
    intro hmem cnt
    obtain ⟨hg1, hg9⟩ := hmem g (List.mem_cons_self _ _)
    rw [List.foldl_cons]
    by_cases hv : is_valid b (g : Int) row col = true
    · have hstep : countStep fuel row col (b, cnt, false) g =
          (b, cnt + numSolutions (setCell b row col (g : Int)), false) := by
        unfold countStep
        rw [if_neg (by simp)]
        simp only [show ((b, cnt, false) : Board × Nat × Bool).1 = b from rfl,
          show ((b, cnt, false) : Board × Nat × Bool).2.1 = cnt from rfl]
        rw [if_pos hv, hrec g hg1 hg9 hv cnt]
        rw [if_neg (by simp)]
        rw [setCell_restore hcell]
      rw [hstep, ih (fun x hx => hmem x (List.mem_cons_of_mem _ hx)) _]
      rw [List.filter_cons, if_pos hv, List.map_cons, List.sum_cons]
      rw [Nat.add_assoc]
    · have hstep : countStep fuel row col (b, cnt, false) g = (b, cnt, false) := by
        unfold countStep
        rw [if_neg (by simp)]
        simp only [show ((b, cnt, false) : Board × Nat × Bool).1 = b from rfl]
        rw [if_neg hv]
      rw [hstep, ih (fun x hx => hmem x (List.mem_cons_of_mem _ hx)) _]
      rw [List.filter_cons, if_neg hv]

theorem count_helper_counts :
    ∀ (fuel : Nat) (b : Board) (cnt : Nat), count_empty b < fuel →
      WfBoard b → cellsInRange b → is_board_valid b = true →
      _count_solutions_helper fuel b cnt = (b, cnt + numSolutions b, false) := by
  intro fuel
  induction fuel using Nat.strong_induction_on with
  | _ fuel ih =>
    intro b cnt hfuel hwf hrange hvalid
    cases fuel with
    | zero => omega
    | succ f =>
      cases hfe : find_next_empty b with
      | none =>
        rw [count_helper_succ_none hfe, numSolutions_of_full hwf hrange hfe hvalid]
      | some rc =>
        obtain ⟨row, col⟩ := rc
        obtain ⟨hrow9, hcol9, hcell⟩ := find_next_empty_some_cell hfe
        obtain ⟨hrb, hcb⟩ := cell_empty_in_range hcell
        have hce : 0 < count_empty b := count_empty_pos hcell
        rw [count_helper_succ_some hfe]
        have hrec : ∀ g : Nat, 1 ≤ g → g ≤ 9 →
            is_valid b (g : Int) row col = true → ∀ cnt',
            _count_solutions_helper f (setCell b row col (g : Int)) cnt' =
              (setCell b row col (g : Int),
                cnt' + numSolutions (setCell b row col (g : Int)), false) := by
          intro g hg1 hg9 hv cnt'
          have hvne : (g : Int) ≠ -1 := by omega
          have hce1 : count_empty (setCell b row col (g : Int)) + 1 = count_empty b :=
            count_empty_setCell hcell hvne
          apply ih f (by omega) _ cnt' (by omega) (wf_setCell _ _ _ hwf)
          · intro r' hr' c' hc'
            by_cases hsame : row = r' ∧ col = c'
            · obtain ⟨rfl, rfl⟩ := hsame
              rw [getCell_setCell_self _ hrb hcb]
              right
              omega
            · rw [getCell_setCell_ne b _ hsame]
              exact hrange r' hr' c' hc'
          · exact is_board_valid_setCell hrow9 hcol9 hcell hvne hv hvalid
        rw [count_loop_sum hcell hrec (List.range' 1 9)
          (fun x hx => by rw [List.mem_range'] at hx; omega) cnt]
        rw [filter_sum_list_finset (fun g : Nat => is_valid b (g : Int) row col)
          (fun g : Nat => numSolutions (setCell b row col (g : Int))),
          ← numSolutions_partition hrow9 hcol9 hcell]

/-- `count_solutions` returns the true number of distinct solutions of a
well-formed, in-range, initially valid grid. -/
theorem count_solutions_counts {b : Board} (hwf : WfBoard b)
    (hrange : cellsInRange b) (hvalid : is_board_valid b = true) :
    count_solutions b = numSolutions b := by
  unfold count_solutions copy_board
  rw [count_helper_counts (count_empty b + 1) b 0 (by omega) hwf hrange hvalid]
  simp

/-! ## Concrete boards and strings used as witnesses and counterexamples -/

/-- A complete but invalid grid: every cell holds `1`. -/
def fullOnesGrid : Board := List.replicate 9 (List.replicate 9 1)

/-- A complete, valid grid (rows are shifts of `1..9`). -/
def cyclicGrid : Board :=
  [[1, 2, 3, 4, 5, 6, 7, 8, 9],
   [4, 5, 6, 7, 8, 9, 1, 2, 3],
   [7, 8, 9, 1, 2, 3, 4, 5, 6],
   [2, 3, 4, 5, 6, 7, 8, 9, 1],
   [5, 6, 7, 8, 9, 1, 2, 3, 4],
   [8, 9, 1, 2, 3, 4, 5, 6, 7],
   [3, 4, 5, 6, 7, 8, 9, 1, 2],
   [6, 7, 8, 9, 1, 2, 3, 4, 5],
   [9, 1, 2, 3, 4, 5, 6, 7, 8]]

/-- `cyclicGrid` with the six cells (rows 0–1, columns 0, 3, 6) blanked;
this puzzle has exactly two completions. -/
def twoSolutionGrid : Board :=
  [[-1, 2, 3, -1, 5, 6, -1, 8, 9],
   [-1, 5, 6, -1, 8, 9, -1, 2, 3],
   [7, 8, 9, 1, 2, 3, 4, 5, 6],
   [2, 3, 4, 5, 6, 7, 8, 9, 1],
   [5, 6, 7, 8, 9, 1, 2, 3, 4],
   [8, 9, 1, 2, 3, 4, 5, 6, 7],
   [3, 4, 5, 6, 7, 8, 9, 1, 2],
   [6, 7, 8, 9, 1, 2, 3, 4, 5],
   [9, 1, 2, 3, 4, 5, 6, 7, 8]]

/-- A grid whose first empty cell (0,0) has two candidates while the later
empty cell (0,1) has exactly one. -/
def mrvCounterGrid : Board :=
  [[-1, -1, 3, 4, 5, 6, 7, 8, 9],
   [-1, -1, -1, -1, -1, -1, -1, -1, -1],
   [-1, -1, -1, -1, -1, -1, -1, -1, -1],
   [-1, 1, -1, -1, -1, -1, -1, -1, -1],
   [-1, -1, -1, -1, -1, -1, -1, -1, -1],
   [-1, -1, -1, -1, -1, -1, -1, -1, -1],
   [-1, -1, -1, -1, -1, -1, -1, -1, -1],
   [-1, -1, -1, -1, -1, -1, -1, -1, -1],
   [-1, -1, -1, -1, -1, -1, -1, -1, -1]]

/-- A grid on which the search fails immediately: the first empty cell
(0,0) admits no digit (1–8 are in its row, 9 in its column). -/
def deadEndGrid : Board :=
  [[-1, 1, 2, 3, 4, 5, 6, 7, 8],
   [-1, -1, -1, -1, -1, -1, -1, -1, -1],
   [-1, -1, -1, -1, -1, -1, -1, -1, -1],
   [9, -1, -1, -1, -1, -1, -1, -1, -1],
   [-1, -1, -1, -1, -1, -1, -1, -1, -1],
   [-1, -1, -1, -1, -1, -1, -1, -1, -1],
   [-1, -1, -1, -1, -1, -1, -1, -1, -1],
   [-1, -1, -1, -1, -1, -1, -1, -1, -1],
   [-1, -1, -1, -1, -1, -1, -1, -1, -1]]

/-- An 81-character puzzle string whose first row starts with a duplicated
digit `1`. -/
def dupRowChars : List Char := ['1', '1'] ++ List.replicate 79 '.'

/-- The classic 81-character example puzzle string. -/
def classicChars : List Char :=
  "53..7....6..195....98....6.8...6...34..8.3..17...2...6.6....28....419..5....8..79".data

theorem isDigitChar_iff (ch : Char) :
    isDigitChar ch = true ↔ ('1' ≤ ch ∧ ch ≤ '9') := by
  unfold isDigitChar
  rw [Bool.and_eq_true, decide_eq_true_eq, decide_eq_true_eq]

/-! ## Claims -/

/-- C1 (counterexample): the claim fails as stated. On the complete but
invalid all-ones grid, `solve_sudoku` returns `true` immediately, and the
grid it leaves behind does not satisfy `is_board_valid`. -/
theorem claim_C1_counterexample :
    (solve_sudoku fullOnesGrid).2 = true ∧
      is_board_valid (solve_sudoku fullOnesGrid).1 = false := by
  decide

/-- C1 (amended): for every 9×9 grid whose initial position already
satisfies `is_board_valid`, if `solve_sudoku` returns `true` then the grid
it leaves behind has no empty cells and satisfies the full
row/column/box uniqueness check. -/
theorem claim_C1 (puzzle : Board) (hwf : WfBoard puzzle)
    (hvalid : is_board_valid puzzle = true)
    (hsolved : (solve_sudoku puzzle).2 = true) :
    (∀ r, r < 9 → ∀ c, c < 9 → getCell (solve_sudoku puzzle).1 r c ≠ -1) ∧
      is_board_valid (solve_sudoku puzzle).1 = true := by
  unfold solve_sudoku at hsolved ⊢
  obtain ⟨hv, hfe⟩ :=
    solve_sudoku_fuel_sound (count_empty puzzle + 1) puzzle hvalid hsolved
  rw [find_next_empty_eq_none_iff] at hfe
  exact ⟨fun r hr c hc => hfe r c hr hc, hv⟩

/-- C1 (witness): the amended claim applied to the complete valid cyclic
grid. -/
theorem claim_C1_witness :
    WfBoard cyclicGrid ∧ is_board_valid cyclicGrid = true ∧
      (solve_sudoku cyclicGrid).2 = true ∧
      ((∀ r, r < 9 → ∀ c, c < 9 → getCell (solve_sudoku cyclicGrid).1 r c ≠ -1) ∧
        is_board_valid (solve_sudoku cyclicGrid).1 = true) :=
  ⟨by decide, by decide, by decide,
    claim_C1 cyclicGrid (by decide) (by decide) (by decide)⟩

/-- C2: `count_solutions` works on a deep copy of the caller's grid; the
board the recursive helper mutates is restored to exactly that copy, and
the copy equals the caller's grid, so the caller's grid after the call is
cell-for-cell its state from before the call, whatever count is
returned. -/
theorem claim_C2 (puzzle : Board) :
    (_count_solutions_helper (count_empty (copy_board puzzle) + 1)
        (copy_board puzzle) 0).1 = copy_board puzzle ∧
      copy_board puzzle = puzzle :=
  ⟨(count_helper_state _ _ _).1, rfl⟩

/-- C3: `get_possible_values` returns the empty set on a filled cell; on
an empty cell it returns exactly the digits `v ∈ 1..9` such that placing
`v` there leaves at most one occurrence of `v` in the cell's row, column
and 3×3 box. -/
theorem claim_C3 (puzzle : Board) (r c : Nat) (hr : r < 9) (hc : c < 9) :
    (getCell puzzle r c ≠ -1 → get_possible_values puzzle r c = ∅) ∧
    (getCell puzzle r c = -1 → ∀ v : Int,
      (v ∈ get_possible_values puzzle r c ↔
        1 ≤ v ∧ v ≤ 9 ∧
        (rowCells (setCell puzzle r c v) r).count v ≤ 1 ∧
        (colCells (setCell puzzle r c v) c).count v ≤ 1 ∧
        (boxCells (setCell puzzle r c v) (r / 3) (c / 3)).count v ≤ 1)) :=
  get_possible_values_spec puzzle r c hr hc

/-- C3 (witness): the characterization applied at the empty cell (0,0) of
`mrvCounterGrid` and evaluated at the digit 1. -/
theorem claim_C3_witness :
    (0 : Nat) < 9 ∧
      getCell mrvCounterGrid 0 0 = -1 ∧
      ((1 : Int) ∈ get_possible_values mrvCounterGrid 0 0 ↔
        1 ≤ (1 : Int) ∧ (1 : Int) ≤ 9 ∧
        (rowCells (setCell mrvCounterGrid 0 0 1) 0).count 1 ≤ 1 ∧
        (colCells (setCell mrvCounterGrid 0 0 1) 0).count 1 ≤ 1 ∧
        (boxCells (setCell mrvCounterGrid 0 0 1) (0 / 3) (0 / 3)).count 1 ≤ 1) :=
  ⟨by decide, by decide,
    (claim_C3 mrvCounterGrid 0 0 (by decide) (by decide)).2 (by decide) 1⟩

/-- C4 (counterexample): `count_solutions` takes no limit parameter and
never caps: on the two-solution grid it returns 2, which a cap of
`limit = 1` would forbid. -/
theorem claim_C4_counterexample :
    count_solutions twoSolutionGrid = 2 ∧ ¬(count_solutions twoSolutionGrid ≤ 1) := by
  decide

/-- C4 (amended): `count_solutions` has no limit parameter and always
behaves as the uncapped mode: on every 9×9 grid whose cells are empty or
digits 1–9 and whose initial position is valid, it returns the true
number of distinct solutions. -/
theorem claim_C4 (puzzle : Board) (hwf : WfBoard puzzle)
    (hrange : cellsInRange puzzle) (hvalid : is_board_valid puzzle = true) :
    count_solutions puzzle = numSolutions puzzle :=
  count_solutions_counts hwf hrange hvalid

/-- C4 (witness): the amended claim applied to the complete valid cyclic
grid. -/
theorem claim_C4_witness :
    WfBoard cyclicGrid ∧ cellsInRange cyclicGrid ∧
      is_board_valid cyclicGrid = true ∧
      count_solutions cyclicGrid = numSolutions cyclicGrid :=
  ⟨by decide, by decide, by decide,
    claim_C4 cyclicGrid (by decide) (by decide) (by decide)⟩

/-- C5 (counterexample): a grid with a duplicated digit in its first row
is not rejected: `read_puzzle_from_string` still returns the board (the
source only prints a warning), and that board fails `is_board_valid`. -/
theorem claim_C5_counterexample :
    (read_puzzle_from_string dupRowChars '.').isSome = true ∧
      is_board_valid ((read_puzzle_from_string dupRowChars '.').getD []) = false := by
  decide

/-- C5 (amended): construction never fails on duplicates. Every
81-character string of digits and markers — duplicates among the
pre-filled cells or not — yields a grid, and the caller proceeds. -/
theorem claim_C5 (s : List Char) (m : Char) (hlen : s.length = 81)
    (hok : ∀ ch ∈ s, isDigitChar ch = true ∨ ch = m) :
    ∃ b, read_puzzle_from_string s m = some b := by
  obtain ⟨b, hb, -, -⟩ := read_puzzle_some s m hlen hok
  exact ⟨b, hb⟩

/-- C5 (witness): the amended claim applied to the duplicated-row
string. -/
theorem claim_C5_witness :
    dupRowChars.length = 81 ∧
      (∀ ch ∈ dupRowChars, isDigitChar ch = true ∨ ch = '.') ∧
      ∃ b, read_puzzle_from_string dupRowChars '.' = some b :=
  ⟨by decide, by decide, claim_C5 dupRowChars '.' (by decide) (by decide)⟩

/-- C6 (counterexample): `find_next_empty` does not select a
minimum-remaining-values cell. On `mrvCounterGrid` it returns the first
empty cell (0,0), which has strictly more candidates than the empty cell
(0,1). -/
theorem claim_C6_counterexample :
    find_next_empty mrvCounterGrid = some (0, 0) ∧
      getCell mrvCounterGrid 0 1 = -1 ∧
      (get_possible_values mrvCounterGrid 0 1).card <
        (get_possible_values mrvCounterGrid 0 0).card := by
  decide

/-- C6 (amended): `find_next_empty` scans in row-major order and returns
the first empty cell, computing no candidate sets; it returns `none`
exactly when the grid has no empty cell. -/
theorem claim_C6 (puzzle : Board) :
    (find_next_empty puzzle = none ↔
      ∀ r, r < 9 → ∀ c, c < 9 → getCell puzzle r c ≠ -1) ∧
    (∀ r c, find_next_empty puzzle = some (r, c) ↔
      (r < 9 ∧ c < 9 ∧ getCell puzzle r c = -1 ∧
        ∀ r' c', r' < 9 → c' < 9 → (r' < r ∨ (r' = r ∧ c' < c)) →
          getCell puzzle r' c' ≠ -1)) := by
  constructor
  · rw [find_next_empty_eq_none_iff]
    constructor
    · intro h r hr c hc
      exact h r c hr hc
    · intro h r c hr hc
      exact h r hr c hc
  · intro r c
    exact find_next_empty_eq_some_iff puzzle r c

/-- C7: the parser returns no grid exactly when the input's length is not
81 or some character is neither a digit `'1'`–`'9'` nor the empty-marker
character. -/
theorem claim_C7 (s : List Char) (m : Char) :
    read_puzzle_from_string s m = none ↔
      (s.length ≠ 81 ∨ ∃ ch ∈ s, ¬('1' ≤ ch ∧ ch ≤ '9') ∧ ch ≠ m) := by
  rw [read_puzzle_none_iff]
  constructor
  · rintro (h | ⟨ch, hmem, hnd, hnm⟩)
    · exact Or.inl h
    · exact Or.inr ⟨ch, hmem, fun hb => hnd ((isDigitChar_iff ch).2 hb), hnm⟩
  · rintro (h | ⟨ch, hmem, hnd, hnm⟩)
    · exact Or.inl h
    · exact Or.inr ⟨ch, hmem, fun hb => hnd ((isDigitChar_iff ch).1 hb), hnm⟩

/-- C8: for every well-formed 81-character puzzle string (each character
a digit or the empty marker), parsing and then serializing with the same
marker returns the original string. -/
theorem claim_C8 (s : List Char) (m : Char) (hlen : s.length = 81)
    (hok : ∀ ch ∈ s, ('1' ≤ ch ∧ ch ≤ '9') ∨ ch = m) :
    ∃ b, read_puzzle_from_string s m = some b ∧ puzzle_to_string b m = s := by
  apply read_then_serialize s m hlen
  intro ch hmem
  rcases hok ch hmem with h | h
  · exact Or.inl ((isDigitChar_iff ch).2 h)
  · exact Or.inr h

/-- C8 (witness): the round trip applied to the classic example string. -/
theorem claim_C8_witness :
    classicChars.length = 81 ∧
      (∀ ch ∈ classicChars, ('1' ≤ ch ∧ ch ≤ '9') ∨ ch = '.') ∧
      ∃ b, read_puzzle_from_string classicChars '.' = some b ∧
        puzzle_to_string b '.' = classicChars :=
  ⟨by decide, by decide, claim_C8 classicChars '.' (by decide) (by decide)⟩

/-- C9: whenever `solve_sudoku` returns `false`, the grid after the call
is cell-for-cell the grid from before the call: every tentative placement
of the failed search has been undone. -/
theorem claim_C9 (puzzle : Board) (hfail : (solve_sudoku puzzle).2 = false) :
    (solve_sudoku puzzle).1 = puzzle := by
  unfold solve_sudoku at hfail ⊢
  exact solve_sudoku_fuel_restore _ _ hfail

/-- C9 (witness): the restoration claim applied to a grid on which the
search fails at once. -/
theorem claim_C9_witness :
    (solve_sudoku deadEndGrid).2 = false ∧ (solve_sudoku deadEndGrid).1 = deadEndGrid :=
  ⟨by decide, claim_C9 deadEndGrid (by decide)⟩

/-- C10: on every grid with no empty cell, `solve_sudoku` returns `true`
immediately with the grid untouched and `count_solutions` returns 1 —
without validating the grid. -/
theorem claim_C10 (puzzle : Board)
    (hfull : ∀ r, r < 9 → ∀ c, c < 9 → getCell puzzle r c ≠ -1) :
    solve_sudoku puzzle = (puzzle, true) ∧ count_solutions puzzle = 1 := by
  have hfe : find_next_empty puzzle = none := by
    rw [find_next_empty_eq_none_iff]
    intro r c hr hc
    exact hfull r hr c hc
  constructor
  · unfold solve_sudoku
    exact solve_sudoku_fuel_succ_none hfe
  · unfold count_solutions copy_board
    rw [count_helper_succ_none hfe]

/-- C10 (witness): applied to the complete all-ones grid, which violates
the uniqueness rules — the base case still reports solved and one
solution. -/
theorem claim_C10_witness :
    (∀ r, r < 9 → ∀ c, c < 9 → getCell fullOnesGrid r c ≠ -1) ∧
      is_board_valid fullOnesGrid = false ∧
      solve_sudoku fullOnesGrid = (fullOnesGrid, true) ∧
      count_solutions fullOnesGrid = 1 :=
  ⟨by decide, by decide,
    (claim_C10 fullOnesGrid (by decide)).1, (claim_C10 fullOnesGrid (by decide)).2⟩
